import Mathlib

/-!
# Regression-tree decoding and traversal (`tree/reg_tree.go`)

A shallow embedding of the Go package `tree`: the node, header and statistics
records, the sequential decoder `LoadModel` with its three record decoders, and
the four traversal entry points.

Conventions of the embedding.

* Go `int` values are `Int`; the source performs no arithmetic on them besides
  comparisons, one mask and one shift, so no wrap-around can occur.
* A `float32` is its IEEE-754 binary32 bit pattern (`F32`); the source only
  compares floats, and the comparisons are defined on the patterns.
* A slice of pointers is a list of options, `none` being the `nil` pointer.
* A call that does not return because the Go run time stops it (index out of
  range, `nil` dereference, a `make` whose length is negative or beyond what the
  machine grants) has the outcome `Run.fault`; loops carry a fuel argument that
  bounds the number of iterations and give `Run.outOfFuel` when it does not
  suffice.
-/

namespace Tree

/-! ## float32 -/

/-- An IEEE-754 binary32 value, held as its bit pattern. Only the low 32 bits of
`bits` are looked at. -/
structure F32 where
  bits : Nat
  deriving DecidableEq, Repr

namespace F32

/-- The sign bit (bit 31). -/
def signBit (f : F32) : Bool := (f.bits / 2147483648) % 2 == 1

/-- The exponent and fraction fields together (bits 0..30). -/
def magnitude (f : F32) : Nat := f.bits % 2147483648

/-- A pattern is a NaN when its exponent is all ones and its fraction is not zero. -/
def isNaN (f : F32) : Bool := decide (2139095040 < f.magnitude)

/-- The position of a non-NaN value in the numeric order: binary32 is
sign-magnitude, so the order of two non-NaN values is the order of their signed
magnitudes, both zeros having position 0 and the infinities lying at the ends. -/
def key (f : F32) : Int := if f.signBit then -(f.magnitude : Int) else (f.magnitude : Int)

/-- Go `a < b` on float32: false as soon as one operand is a NaN. -/
def lt (a b : F32) : Bool := !a.isNaN && !b.isNaN && decide (a.key < b.key)

/-- Go `a == b` on float32: false as soon as one operand is a NaN; `-0 == +0`. -/
def eq (a b : F32) : Bool := !a.isNaN && !b.isNaN && decide (a.key = b.key)

/-- Go `a != b` on float32. -/
def ne (a b : F32) : Bool := !(a.eq b)

/-- Go `a >= b` on float32. -/
def ge (a b : F32) : Bool := !a.isNaN && !b.isNaN && decide (b.key ≤ a.key)

/-- The constant `0.0`. -/
def zero : F32 := ⟨0⟩

/-- Modelled from the spec: `math.NaN()` of the repository's own `math` package,
which is not among the sources; the spec calls it a non-numeric "not applicable"
marker. It is taken to be the quiet NaN `0x7FC00000`. -/
def NaN : F32 := ⟨2143289344⟩

end F32

/-! ## Outcomes -/

/-- The outcome of running a piece of Go code that may fault or loop. -/
inductive Run (α : Type) where
  | done (a : α) : Run α
  | fault : Run α
  | outOfFuel : Run α
  deriving DecidableEq, Repr

/-- Sequencing of outcomes. -/
def Run.bind {α β : Type} (r : Run α) (f : α → Run β) : Run β :=
  match r with
  | .done a => f a
  | .fault => .fault
  | .outOfFuel => .outOfFuel

/-- Go slice indexing `xs[i]` with an `int` index: faults (here `none`) when the
index is negative or not below the length. -/
def goIndex {α : Type} (xs : List α) (i : Int) : Option α :=
  if i < 0 then none else xs[i.toNat]?

/-! ## Records -/

structure Param where
  num_roots : Int
  num_nodes : Int
  num_deleted : Int
  max_depth : Int
  num_feature : Int
  size_leaf_vector : Int
  reserved : List Int
  deriving DecidableEq, Repr

structure Node where
  parent_ : Int
  cleft_ : Int
  cright_ : Int
  sindex_ : Int
  leaf_value : F32
  split_cond : F32
  _defaultNext : Int
  _splitIndex : Int
  _isLeaf : Bool
  deriving DecidableEq, Repr

structure RTreeNodeStat where
  Loss_chg : F32
  Sum_hess : F32
  Base_weight : F32
  Leaf_child_cnt : Int
  deriving DecidableEq, Repr

structure RegTree where
  param : Option Param
  nodes : List (Option Node)
  stats : List (Option RTreeNodeStat)
  deriving DecidableEq, Repr

/-- A Go map `map[int]float32`: the lookup `values[k]` with its presence flag. -/
abbrev GoMap := Int → Option F32

/-! ## Node accessors -/

/-- Source `func (n *Node) is_leaf() bool`. -/
def Node.is_leaf (n : Node) : Bool := n.cleft_ == -1

/-- Source `func (n *Node) split_index() int`: `int(int64(n.sindex_) & 2147483647)`.
Masking a two's-complement integer with `2^31 - 1` keeps its low 31 bits, which is
its residue modulo `2^31`. -/
def Node.split_index (n : Node) : Int := n.sindex_ % 2147483648

/-- Source `func (n *Node) default_left() bool`: arithmetic shift right by 31. -/
def Node.default_left (n : Node) : Bool := (n.sindex_ >>> 31) != 0

/-- Source `func (n *Node) cdefault() int`. -/
def Node.cdefault (n : Node) : Int :=
  if n.default_left then n.cleft_ else n.cright_

/-! ## The per-node lookups -/

/-- Source `func (n *Node) nextFromArray(values []float32, treatsZeroAsNA bool) int`.
`none` is the index-out-of-range fault of `values[n._splitIndex]`. -/
def Node.nextFromArray (n : Node) (values : List F32) (treatsZeroAsNA : Bool) : Option Int :=
  if (values.length : Int) ≤ n._splitIndex then
    some n._defaultNext
  else
    match goIndex values n._splitIndex with
    | none => none
    | some result =>
      if treatsZeroAsNA && result.eq F32.zero then
        some n._defaultNext
      else
        if result.lt n.split_cond then
          some n.cleft_
        else
          some n.cright_

/-- Source `func (n *Node) nextFromMap(values map[int]float32) int`. A missing key gives
`ok = false`. -/
def Node.nextFromMap (n : Node) (values : GoMap) : Int :=
  match values n._splitIndex with
  | none => n._defaultNext
  | some value =>
    if value.ne value then
      n._defaultNext
    else
      if value.lt n.split_cond then
        n.cleft_
      else
        n.cright_

/-! ## Traversal -/

/-- The read `rt.nodes[pid]` followed by a field access on the pointer read: faults when
`pid` is out of range or the entry is `nil`. -/
def RegTree.nodeAt (rt : RegTree) (pid : Int) : Option Node :=
  (goIndex rt.nodes pid).join

/-- The loop of `GetLeafIndexByArray`, on its two variables `pid` and `n`. -/
def RegTree.GetLeafIndexByArray.loop (rt : RegTree) (values : List F32) (treatsZeroAsNA : Bool) :
    Nat → Int → Node → Run Int
  | 0, pid, n => if n._isLeaf then .done pid else .outOfFuel
  | fuel + 1, pid, n =>
    if n._isLeaf then .done pid
    else
      match n.nextFromArray values treatsZeroAsNA with
      | none => .fault
      | some pid' =>
        match rt.nodeAt pid' with
        | none => .fault
        | some n' => RegTree.GetLeafIndexByArray.loop rt values treatsZeroAsNA fuel pid' n'

/-- Source `func (rt *RegTree) GetLeafIndexByArray(values, treatsZeroAsNA, root_id) int`. -/
def RegTree.GetLeafIndexByArray (fuel : Nat) (rt : RegTree) (values : List F32)
    (treatsZeroAsNA : Bool) (root_id : Int) : Run Int :=
  match rt.nodeAt root_id with
  | none => .fault
  | some n => RegTree.GetLeafIndexByArray.loop rt values treatsZeroAsNA fuel root_id n

/-- The loop of `GetLeafIndexByMap`. -/
def RegTree.GetLeafIndexByMap.loop (rt : RegTree) (values : GoMap) :
    Nat → Int → Node → Run Int
  | 0, pid, n => if n._isLeaf then .done pid else .outOfFuel
  | fuel + 1, pid, n =>
    if n._isLeaf then .done pid
    else
      match rt.nodeAt (n.nextFromMap values) with
      | none => .fault
      | some n' => RegTree.GetLeafIndexByMap.loop rt values fuel (n.nextFromMap values) n'

/-- Source `func (rt *RegTree) GetLeafIndexByMap(values, root_id) int`. -/
def RegTree.GetLeafIndexByMap (fuel : Nat) (rt : RegTree) (values : GoMap)
    (root_id : Int) : Run Int :=
  match rt.nodeAt root_id with
  | none => .fault
  | some n => RegTree.GetLeafIndexByMap.loop rt values fuel root_id n

/-- The loop of `GetLeafByMap`, on its single variable `n`. -/
def RegTree.GetLeafByMap.loop (rt : RegTree) (values : GoMap) : Nat → Node → Run F32
  | 0, n => if n._isLeaf then .done n.leaf_value else .outOfFuel
  | fuel + 1, n =>
    if n._isLeaf then .done n.leaf_value
    else
      match rt.nodeAt (n.nextFromMap values) with
      | none => .fault
      | some n' => RegTree.GetLeafByMap.loop rt values fuel n'

/-- Source `func (rt *RegTree) GetLeafByMap(values, root_id) float32`. -/
def RegTree.GetLeafByMap (fuel : Nat) (rt : RegTree) (values : GoMap) (root_id : Int) : Run F32 :=
  match rt.nodeAt root_id with
  | none => .fault
  | some n => RegTree.GetLeafByMap.loop rt values fuel n

/-- The loop of `GetLeafByArray`, on its single variable `n`. -/
def RegTree.GetLeafByArray.loop (rt : RegTree) (values : List F32) (treatsZeroAsNA : Bool) :
    Nat → Node → Run F32
  | 0, n => if n._isLeaf then .done n.leaf_value else .outOfFuel
  | fuel + 1, n =>
    if n._isLeaf then .done n.leaf_value
    else
      match n.nextFromArray values treatsZeroAsNA with
      | none => .fault
      | some pid' =>
        match rt.nodeAt pid' with
        | none => .fault
        | some n' => RegTree.GetLeafByArray.loop rt values treatsZeroAsNA fuel n'

/-- Source `func (rt *RegTree) GetLeafByArray(values, treatsZeroAsNA) float32`, which
starts at node 0. -/
def RegTree.GetLeafByArray (fuel : Nat) (rt : RegTree) (values : List F32)
    (treatsZeroAsNA : Bool) : Run F32 :=
  match rt.nodeAt 0 with
  | none => .fault
  | some n => RegTree.GetLeafByArray.loop rt values treatsZeroAsNA fuel n

/-! ## The stream reader -/

/-- A non-nil Go `error` value; `Option GoError` is the type `error`, `none` being `nil`. -/
structure GoError where
  msg : String
  deriving DecidableEq, Repr

/-- Modelled from the spec: `util.ModelReader`, the sequential primitive reader,
which is not among the sources. It is a state machine over a reader state `σ` with
the three calls the decoders make; each returns the Go pair (value, error) and the
state it leaves the reader in. -/
structure ModelReader (σ : Type) where
  ReadInt : σ → (Int × Option GoError) × σ
  ReadFloat : σ → (F32 × Option GoError) × σ
  ReadIntArray : Nat → σ → (List Int × Option GoError) × σ

/-- A byte stream seen as the sequence of its whole four-byte words, each held as
an unsigned 32-bit pattern. A trailing fragment of fewer than four bytes can
satisfy no read and is not represented. -/
structure Stream where
  words : List Nat
  deriving DecidableEq, Repr

/-- The signed reading of a 32-bit pattern. -/
def wordToInt (w : Nat) : Int :=
  if w % 4294967296 < 2147483648 then ((w % 4294967296 : Nat) : Int)
  else ((w % 4294967296 : Nat) : Int) - 4294967296

/-- The 32-bit pattern of a signed integer. -/
def intToWord (i : Int) : Nat := (i % 4294967296).toNat

/-- The float32 reading of a 32-bit pattern. -/
def wordToF32 (w : Nat) : F32 := ⟨w % 4294967296⟩

/-- The error of a read that finds the stream exhausted. -/
def shortRead : GoError := ⟨"short read"⟩

/-- Modelled from the spec: the Stream Decoder contract. Each call consumes exactly
the words it declares and fails with the short-read error when the stream is
exhausted before the requested words are available; a failed read returns Go's
zero value and leaves the stream exhausted, so every later read fails too. -/
def streamReader : ModelReader Stream where
  ReadInt := fun s =>
    match s.words with
    | [] => ((0, some shortRead), ⟨[]⟩)
    | w :: ws => ((wordToInt w, none), ⟨ws⟩)
  ReadFloat := fun s =>
    match s.words with
    | [] => ((F32.zero, some shortRead), ⟨[]⟩)
    | w :: ws => ((wordToF32 w, none), ⟨ws⟩)
  ReadIntArray := fun k s =>
    if k ≤ s.words.length then
      (((s.words.take k).map wordToInt, none), ⟨s.words.drop k⟩)
    else
      (([], some shortRead), ⟨[]⟩)

/-! ## The decoders -/

section Decoders

variable {σ : Type}

/-- The value of `new(Param)`. -/
def Param.new : Param := ⟨0, 0, 0, 0, 0, 0, []⟩

/-- The value of `new(Node)`. -/
def Node.new : Node := ⟨0, 0, 0, 0, F32.zero, F32.zero, 0, 0, false⟩

/-- The value of `new(RTreeNodeStat)`. -/
def RTreeNodeStat.new : RTreeNodeStat := ⟨F32.zero, F32.zero, F32.zero, 0⟩

/-- Source `func newParam(reader *util.ModelReader) (*Param, error)`. Every read
assigns its value to the field before the error is tested. -/
def newParam (R : ModelReader σ) (s : σ) : (Param × Option GoError) × σ :=
  let param := Param.new
  match R.ReadInt s with
  | ((v, some e), s) => (({ param with num_roots := v }, some e), s)
  | ((v, none), s) =>
  let param := { param with num_roots := v }
  match R.ReadInt s with
  | ((v, some e), s) => (({ param with num_nodes := v }, some e), s)
  | ((v, none), s) =>
  let param := { param with num_nodes := v }
  match R.ReadInt s with
  | ((v, some e), s) => (({ param with num_deleted := v }, some e), s)
  | ((v, none), s) =>
  let param := { param with num_deleted := v }
  match R.ReadInt s with
  | ((v, some e), s) => (({ param with max_depth := v }, some e), s)
  | ((v, none), s) =>
  let param := { param with max_depth := v }
  match R.ReadInt s with
  | ((v, some e), s) => (({ param with num_feature := v }, some e), s)
  | ((v, none), s) =>
  let param := { param with num_feature := v }
  match R.ReadInt s with
  | ((v, some e), s) => (({ param with size_leaf_vector := v }, some e), s)
  | ((v, none), s) =>
  let param := { param with size_leaf_vector := v }
  match R.ReadIntArray 31 s with
  | ((vs, err), s) => (({ param with reserved := vs }, err), s)

/-- The tail of `newNode` after the float has been read: the three derived fields
are set from the accessors and the node is returned with a `nil` error. -/
def newNode.finish (node : Node) : Node × Option GoError :=
  let node := { node with _defaultNext := node.cdefault }
  let node := { node with _splitIndex := node.split_index }
  let node := { node with _isLeaf := node.is_leaf }
  (node, none)

/-- Source `func newNode(reader *util.ModelReader) (*Node, error)`. The error of
the float read is assigned to `err` and not looked at again: the function ends
with `return node, nil`. -/
def newNode (R : ModelReader σ) (s : σ) : (Node × Option GoError) × σ :=
  let node := Node.new
  match R.ReadInt s with
  | ((v, some e), s) => (({ node with parent_ := v }, some e), s)
  | ((v, none), s) =>
  let node := { node with parent_ := v }
  match R.ReadInt s with
  | ((v, some e), s) => (({ node with cleft_ := v }, some e), s)
  | ((v, none), s) =>
  let node := { node with cleft_ := v }
  match R.ReadInt s with
  | ((v, some e), s) => (({ node with cright_ := v }, some e), s)
  | ((v, none), s) =>
  let node := { node with cright_ := v }
  match R.ReadInt s with
  | ((v, some e), s) => (({ node with sindex_ := v }, some e), s)
  | ((v, none), s) =>
  let node := { node with sindex_ := v }
  if node.is_leaf then
    match R.ReadFloat s with
    | ((f, _), s) => (newNode.finish { node with leaf_value := f, split_cond := F32.NaN }, s)
  else
    match R.ReadFloat s with
    | ((f, _), s) => (newNode.finish { node with split_cond := f, leaf_value := F32.NaN }, s)

/-- Source `func newRTreeNodeStat(reader *util.ModelReader) (*RTreeNodeStat, error)`. -/
def newRTreeNodeStat (R : ModelReader σ) (s : σ) : (RTreeNodeStat × Option GoError) × σ :=
  let st := RTreeNodeStat.new
  match R.ReadFloat s with
  | ((v, some e), s) => (({ st with Loss_chg := v }, some e), s)
  | ((v, none), s) =>
  let st := { st with Loss_chg := v }
  match R.ReadFloat s with
  | ((v, some e), s) => (({ st with Sum_hess := v }, some e), s)
  | ((v, none), s) =>
  let st := { st with Sum_hess := v }
  match R.ReadFloat s with
  | ((v, some e), s) => (({ st with Base_weight := v }, some e), s)
  | ((v, none), s) =>
  let st := { st with Base_weight := v }
  match R.ReadInt s with
  | ((v, err), s) => (({ st with Leaf_child_cnt := v }, err), s)

/-- The first loop of `LoadModel`, `for i := 0; i < param.num_nodes; i++`, with
`k` iterations left and the index at `i`: the decoded pointer is stored in
`rt.nodes[i]` before the error is tested. -/
def RegTree.loadNodes (R : ModelReader σ) :
    Nat → Nat → List (Option Node) → σ → (List (Option Node) × Option GoError) × σ
  | 0, _, nodes, s => ((nodes, none), s)
  | k + 1, i, nodes, s =>
    match newNode R s with
    | ((nd, some e), s) => ((nodes.set i (some nd), some e), s)
    | ((nd, none), s) => RegTree.loadNodes R k (i + 1) (nodes.set i (some nd)) s

/-- The second loop of `LoadModel`, over the statistics records. -/
def RegTree.loadStats (R : ModelReader σ) :
    Nat → Nat → List (Option RTreeNodeStat) → σ →
      (List (Option RTreeNodeStat) × Option GoError) × σ
  | 0, _, stats, s => ((stats, none), s)
  | k + 1, i, stats, s =>
    match newRTreeNodeStat R s with
    | ((st, some e), s) => ((stats.set i (some st), some e), s)
    | ((st, none), s) => RegTree.loadStats R k (i + 1) (stats.set i (some st)) s

/-- Go `make([]*T, n)`: a slice of `n` nil pointers. The call does not return when
`n` is negative (the run time panics, len out of range) or when `n` exceeds
`maxLen`, the greatest length the machine grants: beyond it a 32-bit target panics
with len out of range and any target is stopped by the run time, out of memory. -/
def makeSlice {α : Type} (maxLen : Nat) (n : Int) : Option (List (Option α)) :=
  if n < 0 then none
  else if maxLen < n.toNat then none
  else some (List.replicate n.toNat none)

/-- Source `func (rt *RegTree) LoadModel(reader *util.ModelReader) error`, on a
machine that grants slices of up to `maxLen` pointers. The result is the returned
error, the receiver after the call and the reader state. The node table is made
right after the header is decoded, before any node is read, and the statistics
table after the node loop; a `make` that fails is a fault. -/
def RegTree.LoadModel (maxLen : Nat) (R : ModelReader σ) (rt : RegTree) (s : σ) :
    Run ((Option GoError × RegTree) × σ) :=
  match newParam R s with
  | ((_, some e), s) => .done ((some e, rt), s)
  | ((param, none), s) =>
    match makeSlice maxLen param.num_nodes with
    | none => .fault
    | some nodes0 =>
      let rt := { rt with param := some param, nodes := nodes0 }
      match RegTree.loadNodes R param.num_nodes.toNat 0 rt.nodes s with
      | ((nodes, some e), s) => .done ((some e, { rt with nodes := nodes }), s)
      | ((nodes, none), s) =>
        match makeSlice maxLen param.num_nodes with
        | none => .fault
        | some stats0 =>
          let rt := { rt with nodes := nodes, stats := stats0 }
          match RegTree.loadStats R param.num_nodes.toNat 0 rt.stats s with
          | ((stats, err), s) => .done ((err, { rt with stats := stats }), s)

end Decoders

/-! ## The topology invariant -/

/-- A child link of the tree: `i` holds a non-leaf node and `j` is its left or
its right child. -/
def RegTree.childLink (rt : RegTree) (i j : Int) : Prop :=
  ∃ n, rt.nodeAt i = some n ∧ n._isLeaf = false ∧ (j = n.cleft_ ∨ j = n.cright_)

/-- The topology invariant the traversal relies on: the children of every
non-leaf node are valid indices into `nodes`, the default successor of every node
is one of its two children, and no node is reachable from itself by child links. -/
structure RegTree.Topology (rt : RegTree) : Prop where
  children_valid : ∀ i n, rt.nodeAt i = some n → n._isLeaf = false →
    (rt.nodeAt n.cleft_).isSome ∧ (rt.nodeAt n.cright_).isSome
  default_is_child : ∀ i n, rt.nodeAt i = some n →
    n._defaultNext = n.cleft_ ∨ n._defaultNext = n.cright_
  acyclic : ∀ i, ¬ Relation.TransGen rt.childLink i i

/-- Every non-leaf node tests a feature id that is not negative. -/
def RegTree.SplitsNonneg (rt : RegTree) : Prop :=
  ∀ i n, rt.nodeAt i = some n → n._isLeaf = false → 0 ≤ n._splitIndex

/-- The projection that ends a leaf-value walk: `nodes[i].leaf_value`. -/
def RegTree.leafValueAt (rt : RegTree) (i : Int) : Run F32 :=
  match rt.nodeAt i with
  | none => .fault
  | some n => .done n.leaf_value

/-! ## Concrete values used to instantiate the theorems -/

/-- The float32 `1.0`. -/
def F32.one : F32 := ⟨1065353216⟩

/-- The float32 `2.0`. -/
def F32.two : F32 := ⟨1073741824⟩

/-- The float32 `3.0`. -/
def F32.three : F32 := ⟨1077936128⟩

/-- The float32 `5.0`. -/
def F32.five : F32 := ⟨1084227584⟩

/-- A split node on feature 0 with threshold `3.0`, children 1 and 2, default left. -/
def sampleRoot : Node :=
  { parent_ := -1, cleft_ := 1, cright_ := 2, sindex_ := -2147483648,
    leaf_value := F32.NaN, split_cond := F32.three,
    _defaultNext := 1, _splitIndex := 0, _isLeaf := false }

/-- A leaf with the given output. -/
def sampleLeaf (v : F32) : Node :=
  { parent_ := 0, cleft_ := -1, cright_ := -1, sindex_ := 0,
    leaf_value := v, split_cond := F32.NaN,
    _defaultNext := -1, _splitIndex := 0, _isLeaf := true }

/-- The three-node tree: `sampleRoot` over the leaves `1.0` (left) and `2.0` (right). -/
def sampleTree : RegTree :=
  { param := none,
    nodes := [some sampleRoot, some (sampleLeaf F32.one), some (sampleLeaf F32.two)],
    stats := [] }

/-- A sparse input holding feature 0 only. -/
def sparseAt0 (v : F32) : GoMap := fun k => if k = 0 then some v else none

/-- The empty sparse input. -/
def sparseEmpty : GoMap := fun _ => none

/-! ## Stream layout of a tree -/

/-- The reader state after `k` successive calls of `ReadInt`. -/
def ModelReader.afterInts {σ : Type} (R : ModelReader σ) : Nat → σ → σ
  | 0, s => s
  | k + 1, s => (R.ReadInt (ModelReader.afterInts R k s)).2

/-- The values that fit a four-byte signed integer field. -/
def FitsInt32 (i : Int) : Prop := -2147483648 ≤ i ∧ i < 2147483648

instance (i : Int) : Decidable (FitsInt32 i) := by
  unfold FitsInt32
  infer_instance

/-- The float32 values proper: patterns of 32 bits. -/
def F32.Valid (f : F32) : Prop := f.bits < 4294967296

instance (f : F32) : Decidable (F32.Valid f) := by
  unfold F32.Valid
  infer_instance

/-- The five values of a node record of the stream: `parent`, `left_child`,
`right_child`, `packed_index` and the single float. -/
structure NodeRecord where
  parent : Int
  left : Int
  right : Int
  packed : Int
  value : F32
  deriving DecidableEq, Repr

/-- A header whose seven fields fit the stream: the integers are 32-bit and the
reserved block has 31 slots. -/
def Param.Fits (p : Param) : Prop :=
  FitsInt32 p.num_roots ∧ FitsInt32 p.num_nodes ∧ FitsInt32 p.num_deleted ∧
  FitsInt32 p.max_depth ∧ FitsInt32 p.num_feature ∧ FitsInt32 p.size_leaf_vector ∧
  p.reserved.length = 31 ∧ ∀ x ∈ p.reserved, FitsInt32 x

instance (p : Param) : Decidable p.Fits := by
  unfold Param.Fits
  infer_instance

/-- A node record whose fields fit the stream. -/
def NodeRecord.Fits (r : NodeRecord) : Prop :=
  FitsInt32 r.parent ∧ FitsInt32 r.left ∧ FitsInt32 r.right ∧ FitsInt32 r.packed ∧
  r.value.Valid

instance (r : NodeRecord) : Decidable r.Fits := by
  unfold NodeRecord.Fits
  infer_instance

/-- A statistics record whose fields fit the stream. -/
def RTreeNodeStat.Fits (st : RTreeNodeStat) : Prop :=
  st.Loss_chg.Valid ∧ st.Sum_hess.Valid ∧ st.Base_weight.Valid ∧ FitsInt32 st.Leaf_child_cnt

instance (st : RTreeNodeStat) : Decidable st.Fits := by
  unfold RTreeNodeStat.Fits
  infer_instance

/-- The 37 words of a header: the six integers, then the reserved block. -/
def Param.encode (p : Param) : List Nat :=
  [intToWord p.num_roots, intToWord p.num_nodes, intToWord p.num_deleted,
   intToWord p.max_depth, intToWord p.num_feature, intToWord p.size_leaf_vector] ++
  p.reserved.map intToWord

/-- The 5 words of a node record. -/
def NodeRecord.encode (r : NodeRecord) : List Nat :=
  [intToWord r.parent, intToWord r.left, intToWord r.right, intToWord r.packed, r.value.bits]

/-- The 4 words of a statistics record. -/
def RTreeNodeStat.encode (st : RTreeNodeStat) : List Nat :=
  [st.Loss_chg.bits, st.Sum_hess.bits, st.Base_weight.bits, intToWord st.Leaf_child_cnt]

/-- The stream of a tree: header, node records in index order, statistics records
in index order, followed by whatever comes next. -/
def treeStream (hdr : Param) (recs : List NodeRecord) (stats : List RTreeNodeStat)
    (rest : List Nat) : Stream :=
  ⟨hdr.encode ++ ((recs.map NodeRecord.encode).flatten ++
    ((stats.map RTreeNodeStat.encode).flatten ++ rest))⟩

/-- The node `newNode` builds from the five values of a record. -/
def NodeRecord.toNode (r : NodeRecord) : Node :=
  { parent_ := r.parent, cleft_ := r.left, cright_ := r.right, sindex_ := r.packed,
    leaf_value := if r.left = -1 then r.value else F32.NaN,
    split_cond := if r.left = -1 then F32.NaN else r.value,
    _defaultNext := if (r.packed >>> 31) != 0 then r.left else r.right,
    _splitIndex := r.packed % 2147483648,
    _isLeaf := r.left == -1 }

/-- The `num_nodes` field as the header words of a stream hold it (word 1). -/
def Stream.numNodes (s : Stream) : Int := wordToInt (s.words.getD 1 0)

/-- The empty tree a load starts from. -/
def RegTree.empty : RegTree := ⟨none, [], []⟩

/-- A header announcing three nodes. -/
def sampleHeader : Param :=
  { num_roots := 1, num_nodes := 3, num_deleted := 0, max_depth := 1, num_feature := 1,
    size_leaf_vector := 0, reserved := List.replicate 31 0 }

/-- The node records of the sample tree. -/
def sampleRecords : List NodeRecord :=
  [⟨-1, 1, 2, -2147483648, F32.three⟩, ⟨0, -1, -1, 0, F32.one⟩, ⟨0, -1, -1, 0, F32.two⟩]

/-- Three statistics records. -/
def sampleStats : List RTreeNodeStat :=
  [⟨F32.one, F32.two, F32.zero, 2⟩, ⟨F32.zero, F32.one, F32.one, 0⟩,
   ⟨F32.zero, F32.one, F32.two, 0⟩]

/-- A bare header of 37 words that announces 2147483647 nodes and is followed by
nothing. -/
def hugeHeaderWords : Stream := ⟨[1, 2147483647, 0, 0, 0, 0] ++ List.replicate 31 0⟩

/-- The greatest number of pointers a machine with a 32-bit address space can grant
at best: `2^32 - 1` bytes of four-byte pointers. -/
def maxLen32 : Nat := 1073741823

/-! ## Sample node records as words -/

/-- The five words of a leaf record (`left_child = -1`, `packed_index = 0`, value
`1.0`), followed by one further word. -/
def leafWords : Stream := ⟨[0, 4294967295, 4294967295, 0, 1065353216, 9]⟩

/-- The five words of a split record with children 1 and 2, packed index
`0x80000003` (feature 3, sign bit set) and threshold `3.0`, followed by one further
word. -/
def splitWords : Stream := ⟨[4294967295, 1, 2, 2147483651, 1077936128, 9]⟩

/-- The split record of `splitWords` with the sign bit of the packed index clear. -/
def splitWordsRight : Stream := ⟨[4294967295, 1, 2, 3, 1077936128, 9]⟩

/-- The five words of the sample root: children 1 and 2, packed index `0x80000000`
(feature 0, sign bit set), threshold `3.0`. -/
def rootWords : Stream := ⟨[4294967295, 1, 2, 2147483648, 1077936128]⟩

/-! ## Dense vectors as sparse maps, and the height of a subtree -/

/-- The sparse input that holds exactly the keys `0 .. len(values) - 1`, the key
`i` carrying `values[i]`. -/
def denseAsMap (values : List F32) : GoMap := fun k => goIndex values k

/-- The subtree under node `i` has height at most `d`: `i` is a valid index and
every chain of child links from it reaches a leaf within `d` links. -/
def RegTree.heightLe (rt : RegTree) : Nat → Int → Bool
  | 0, i =>
    match rt.nodeAt i with
    | none => false
    | some n => n._isLeaf
  | d + 1, i =>
    match rt.nodeAt i with
    | none => false
    | some n => n._isLeaf || (RegTree.heightLe rt d n.cleft_ && RegTree.heightLe rt d n.cright_)

/-- The sample header with `max_depth` 0, although the tree it announces has a
root over two leaves. -/
def shallowHeader : Param :=
  { num_roots := 1, num_nodes := 3, num_deleted := 0, max_depth := 0, num_feature := 1,
    size_leaf_vector := 0, reserved := List.replicate 31 0 }

/-- The tree that `LoadModel` builds from `shallowHeader`, the sample node records
and the sample statistics. -/
def shallowTree : RegTree :=
  { param := some shallowHeader,
    nodes := [some sampleRoot, some (sampleLeaf F32.one), some (sampleLeaf F32.two)],
    stats := sampleStats.map some }

/-- The tree that `LoadModel` builds from `sampleHeader`, the sample node records
and the sample statistics. -/
def loadedSampleTree : RegTree :=
  { param := some sampleHeader,
    nodes := [some sampleRoot, some (sampleLeaf F32.one), some (sampleLeaf F32.two)],
    stats := sampleStats.map some }

/-! # Theorems -/

/-! ## float32 comparisons -/

theorem F32.ne_self_eq_isNaN (f : F32) : f.ne f = f.isNaN := by
  unfold F32.ne F32.eq
  cases h : f.isNaN <;> simp

theorem F32.lt_eq_false_of_eq {a b : F32} (h : a.eq b = true) : a.lt b = false := by
  unfold F32.eq at h
  unfold F32.lt
  simp only [Bool.and_eq_true, decide_eq_true_eq] at h
  simp [h.2]

theorem F32.lt_eq_false_of_ge {a b : F32} (h : a.ge b = true) : a.lt b = false := by
  unfold F32.ge at h
  unfold F32.lt
  simp only [Bool.and_eq_true, decide_eq_true_eq] at h
  have : ¬ a.key < b.key := not_lt.mpr h.2
  simp [this]

theorem goIndex_eq_some_iff {α : Type} (xs : List α) (i : Int) (a : α) :
    goIndex xs i = some a ↔ 0 ≤ i ∧ xs[i.toNat]? = some a := by
  unfold goIndex
  by_cases h : i < 0
  · simp [h]
  · simp [h, not_lt.mp h]

theorem goIndex_eq_none_iff {α : Type} (xs : List α) (i : Int) :
    goIndex xs i = none ↔ i < 0 ∨ (xs.length : Int) ≤ i := by
  unfold goIndex
  by_cases h : i < 0
  · simp [h]
  · have h0 : 0 ≤ i := not_lt.mp h
    simp only [h, if_false, false_or, List.getElem?_eq_none_iff]
    omega

/-- The dense lookup faults exactly when the split feature is negative. -/
theorem Node.nextFromArray_eq_none_iff (n : Node) (values : List F32) (z : Bool) :
    n.nextFromArray values z = none ↔ n._splitIndex < 0 := by
  unfold Node.nextFromArray
  by_cases hlen : (values.length : Int) ≤ n._splitIndex
  · simp only [hlen, if_true]
    constructor
    · intro h; cases h
    · intro h; omega
  · simp only [hlen, if_false]
    cases hv : goIndex values n._splitIndex with
    | none =>
      have := (goIndex_eq_none_iff values n._splitIndex).mp hv
      simp only [true_iff]
      omega
    | some v =>
      have := ((goIndex_eq_some_iff values n._splitIndex v).mp hv).1
      constructor
      · intro h
        simp only at h
        split at h <;> [cases h; (split at h <;> cases h)]
      · intro h; omega

/-! ## C1: the dense lookup step -/

/-- C1: the dense lookup step `nextFromArray`. When the vector is too short for the
split feature the default successor is returned; otherwise, `v` being the element
at the split feature, the default successor is returned when zero counts as
missing and `v == 0.0`, else the left child when `v < split_cond` and the right
child in every other case, a tie `v == split_cond` included. The lookup faults
exactly when the split feature is negative. -/
theorem nextFromArray_cases (n : Node) (values : List F32) (treatsZeroAsNA : Bool) :
    ((values.length : Int) ≤ n._splitIndex →
        n.nextFromArray values treatsZeroAsNA = some n._defaultNext) ∧
    (∀ v, ¬ ((values.length : Int) ≤ n._splitIndex) → goIndex values n._splitIndex = some v →
      (treatsZeroAsNA = true → v.eq F32.zero = true →
        n.nextFromArray values treatsZeroAsNA = some n._defaultNext) ∧
      (¬ (treatsZeroAsNA = true ∧ v.eq F32.zero = true) → v.lt n.split_cond = true →
        n.nextFromArray values treatsZeroAsNA = some n.cleft_) ∧
      (¬ (treatsZeroAsNA = true ∧ v.eq F32.zero = true) → v.lt n.split_cond = false →
        n.nextFromArray values treatsZeroAsNA = some n.cright_) ∧
      (¬ (treatsZeroAsNA = true ∧ v.eq F32.zero = true) → v.eq n.split_cond = true →
        n.nextFromArray values treatsZeroAsNA = some n.cright_)) ∧
    (n.nextFromArray values treatsZeroAsNA = none ↔ n._splitIndex < 0) := by
  refine ⟨?_, ?_, ?_⟩
  · intro h
    simp [Node.nextFromArray, h]
  · intro v hlen hv
    refine ⟨?_, ?_, ?_, ?_⟩
    · intro hz h0
      simp [Node.nextFromArray, hlen, hv, hz, h0]
    · intro hz hlt
      have hz' : (treatsZeroAsNA && v.eq F32.zero) = false := by
        cases treatsZeroAsNA <;> cases h0 : v.eq F32.zero <;> simp_all
      simp [Node.nextFromArray, hlen, hv, hz', hlt]
    · intro hz hlt
      have hz' : (treatsZeroAsNA && v.eq F32.zero) = false := by
        cases treatsZeroAsNA <;> cases h0 : v.eq F32.zero <;> simp_all
      simp [Node.nextFromArray, hlen, hv, hz', hlt]
    · intro hz heq
      have hz' : (treatsZeroAsNA && v.eq F32.zero) = false := by
        cases treatsZeroAsNA <;> cases h0 : v.eq F32.zero <;> simp_all
      simp [Node.nextFromArray, hlen, hv, hz', F32.lt_eq_false_of_eq heq]
  · exact Node.nextFromArray_eq_none_iff n values treatsZeroAsNA

/-- Witness for C1 on the sample root: the one-element vectors `[5.0]`, `[3.0]`
(the tie) and `[1.0]`, and the zero vector with zero counting as missing. -/
theorem nextFromArray_cases_witness :
    sampleRoot.nextFromArray [] false = some 1 ∧
    sampleRoot.nextFromArray [F32.zero] true = some 1 ∧
    sampleRoot.nextFromArray [F32.one] false = some 1 ∧
    sampleRoot.nextFromArray [F32.five] false = some 2 ∧
    sampleRoot.nextFromArray [F32.three] false = some 2 :=
  ⟨(nextFromArray_cases sampleRoot [] false).1 (by decide),
   ((nextFromArray_cases sampleRoot [F32.zero] true).2.1 F32.zero (by decide) (by decide)).1
      rfl (by decide),
   ((nextFromArray_cases sampleRoot [F32.one] false).2.1 F32.one (by decide) (by decide)).2.1
      (by decide) (by decide),
   ((nextFromArray_cases sampleRoot [F32.five] false).2.1 F32.five (by decide) (by decide)).2.2.1
      (by decide) (by decide),
   ((nextFromArray_cases sampleRoot [F32.three] false).2.1 F32.three (by decide)
      (by decide)).2.2.2 (by decide) (by decide)⟩

/-! ## C2: the sparse lookup step -/

/-- C2: the sparse lookup step `nextFromMap`. The default successor is returned
when the map has no entry for the split feature or when the entry is not equal to
itself, which is the case exactly for a NaN; otherwise the left child is returned
when the value is below `split_cond` and the right child in every other case, a
tie included. A present `0.0` is compared against the threshold like any other
number. -/
theorem nextFromMap_cases (n : Node) (values : GoMap) :
    (values n._splitIndex = none → n.nextFromMap values = n._defaultNext) ∧
    (∀ v, values n._splitIndex = some v →
      (v.ne v = true ↔ v.isNaN = true) ∧
      (v.ne v = true → n.nextFromMap values = n._defaultNext) ∧
      (v.ne v = false → v.lt n.split_cond = true → n.nextFromMap values = n.cleft_) ∧
      (v.ne v = false → v.lt n.split_cond = false → n.nextFromMap values = n.cright_) ∧
      (v.ne v = false → v.eq n.split_cond = true → n.nextFromMap values = n.cright_) ∧
      (v.eq F32.zero = true →
        n.nextFromMap values = if v.lt n.split_cond then n.cleft_ else n.cright_)) := by
  refine ⟨?_, ?_⟩
  · intro h
    simp [Node.nextFromMap, h]
  · intro v hv
    refine ⟨by rw [F32.ne_self_eq_isNaN], ?_, ?_, ?_, ?_, ?_⟩
    · intro hne
      simp [Node.nextFromMap, hv, hne]
    · intro hne hlt
      simp [Node.nextFromMap, hv, hne, hlt]
    · intro hne hlt
      simp [Node.nextFromMap, hv, hne, hlt]
    · intro hne heq
      simp [Node.nextFromMap, hv, hne, F32.lt_eq_false_of_eq heq]
    · intro h0
      have hnan : v.isNaN = false := by
        unfold F32.eq at h0
        cases h : v.isNaN <;> simp_all
      have hne : v.ne v = false := by rw [F32.ne_self_eq_isNaN]; exact hnan
      simp [Node.nextFromMap, hv, hne]

/-- Witness for C2 on a root whose default is the right child: an absent key and
a NaN entry go right by default, `1.0` goes left, the tie `3.0` goes right, and a
present `0.0` is compared (it goes left, not to the default). -/
theorem nextFromMap_cases_witness :
    ({ sampleRoot with _defaultNext := 2 } : Node).nextFromMap sparseEmpty = 2 ∧
    ({ sampleRoot with _defaultNext := 2 } : Node).nextFromMap (sparseAt0 F32.NaN) = 2 ∧
    ({ sampleRoot with _defaultNext := 2 } : Node).nextFromMap (sparseAt0 F32.one) = 1 ∧
    ({ sampleRoot with _defaultNext := 2 } : Node).nextFromMap (sparseAt0 F32.three) = 2 ∧
    ({ sampleRoot with _defaultNext := 2 } : Node).nextFromMap (sparseAt0 F32.zero) = 1 :=
  ⟨(nextFromMap_cases { sampleRoot with _defaultNext := 2 } sparseEmpty).1 rfl,
   ((nextFromMap_cases { sampleRoot with _defaultNext := 2 } (sparseAt0 F32.NaN)).2
      F32.NaN rfl).2.1 (by decide),
   ((nextFromMap_cases { sampleRoot with _defaultNext := 2 } (sparseAt0 F32.one)).2
      F32.one rfl).2.2.1 (by decide) (by decide),
   ((nextFromMap_cases { sampleRoot with _defaultNext := 2 } (sparseAt0 F32.three)).2
      F32.three rfl).2.2.2.2.1 (by decide) (by decide),
   ((nextFromMap_cases { sampleRoot with _defaultNext := 2 } (sparseAt0 F32.zero)).2
      F32.zero rfl).2.2.2.2.2 (by decide)⟩

/-! ## C3: a tie goes right, end to end -/

/-- C3: on the three-node tree whose node 0 splits on feature 0 at `3.0` with left
child 1 and right child 2 (whatever its default successor), node 1 being a leaf of
value `1.0` and node 2 a leaf of value `2.0`, `GetLeafByArray([v], false)` returns
`2.0` for every `v >= 3.0` and `1.0` for every `v < 3.0`; one loop iteration is
enough. -/
theorem GetLeafByArray_tie_goes_right (rt : RegTree) (n0 n1 n2 : Node)
    (hnodes : rt.nodes = [some n0, some n1, some n2])
    (h0leaf : n0._isLeaf = false) (h0split : n0._splitIndex = 0)
    (h0cond : n0.split_cond = F32.three) (h0left : n0.cleft_ = 1) (h0right : n0.cright_ = 2)
    (h1leaf : n1._isLeaf = true) (h1val : n1.leaf_value = F32.one)
    (h2leaf : n2._isLeaf = true) (h2val : n2.leaf_value = F32.two)
    (v : F32) (fuel : Nat) (hfuel : 1 ≤ fuel) :
    (v.ge F32.three = true → rt.GetLeafByArray fuel [v] false = Run.done F32.two) ∧
    (v.lt F32.three = true → rt.GetLeafByArray fuel [v] false = Run.done F32.one) := by
  obtain ⟨k, rfl⟩ : ∃ k, fuel = k + 1 := ⟨fuel - 1, by omega⟩
  have hroot : rt.nodeAt 0 = some n0 := by simp [RegTree.nodeAt, goIndex, hnodes]
  have hat1 : rt.nodeAt 1 = some n1 := by simp [RegTree.nodeAt, goIndex, hnodes]
  have hat2 : rt.nodeAt 2 = some n2 := by simp [RegTree.nodeAt, goIndex, hnodes]
  have hidx : goIndex [v] (0 : Int) = some v := by simp [goIndex]
  have hleaf : ∀ (m : Node), m._isLeaf = true →
      RegTree.GetLeafByArray.loop rt [v] false k m = Run.done m.leaf_value := by
    intro m hm
    cases k <;> simp [RegTree.GetLeafByArray.loop, hm]
  constructor
  · intro hge
    have hlt : v.lt F32.three = false := F32.lt_eq_false_of_ge hge
    have hnext : n0.nextFromArray [v] false = some 2 := by
      simp [Node.nextFromArray, h0split, hidx, h0cond, hlt, h0right]
    simp [RegTree.GetLeafByArray, hroot, RegTree.GetLeafByArray.loop, h0leaf, hnext, hat2,
      hleaf n2 h2leaf, h2val]
  · intro hlt
    have hnext : n0.nextFromArray [v] false = some 1 := by
      simp [Node.nextFromArray, h0split, hidx, h0cond, hlt, h0left]
    simp [RegTree.GetLeafByArray, hroot, RegTree.GetLeafByArray.loop, h0leaf, hnext, hat1,
      hleaf n1 h1leaf, h1val]

/-- Witness for C3: the inputs `[5.0]` and `[3.0]` (the exact tie) give `2.0`, the
input `[1.0]` gives `1.0`. -/
theorem GetLeafByArray_tie_goes_right_witness :
    sampleTree.GetLeafByArray 1 [F32.five] false = Run.done F32.two ∧
    sampleTree.GetLeafByArray 1 [F32.three] false = Run.done F32.two ∧
    sampleTree.GetLeafByArray 1 [F32.one] false = Run.done F32.one :=
  ⟨(GetLeafByArray_tie_goes_right sampleTree sampleRoot (sampleLeaf F32.one)
      (sampleLeaf F32.two) rfl rfl rfl rfl rfl rfl rfl rfl rfl rfl F32.five 1
      (le_refl 1)).1 (by decide),
   (GetLeafByArray_tie_goes_right sampleTree sampleRoot (sampleLeaf F32.one)
      (sampleLeaf F32.two) rfl rfl rfl rfl rfl rfl rfl rfl rfl rfl F32.three 1
      (le_refl 1)).1 (by decide),
   (GetLeafByArray_tie_goes_right sampleTree sampleRoot (sampleLeaf F32.one)
      (sampleLeaf F32.two) rfl rfl rfl rfl rfl rfl rfl rfl rfl rfl F32.one 1
      (le_refl 1)).2 (by decide)⟩

/-! ## Termination of the walk under the topology invariant -/

theorem RegTree.nodeAt_bounds {rt : RegTree} {i : Int} {n : Node} (h : rt.nodeAt i = some n) :
    0 ≤ i ∧ i.toNat < rt.nodes.length := by
  unfold RegTree.nodeAt at h
  cases hg : goIndex rt.nodes i with
  | none => simp [hg] at h
  | some o =>
    have := (goIndex_eq_some_iff rt.nodes i o).mp hg
    refine ⟨this.1, ?_⟩
    have h2 := this.2
    rw [List.getElem?_eq_some_iff] at h2
    exact h2.1

/-- Under the topology invariant the descendant relation on the node indices is
well founded. -/
theorem RegTree.Topology.wellFounded {rt : RegTree} (h : rt.Topology) :
    WellFounded (fun (a b : Fin rt.nodes.length) =>
      Relation.TransGen rt.childLink ((b : Nat) : Int) ((a : Nat) : Int)) := by
  haveI : IsTrans (Fin rt.nodes.length) (fun a b =>
      Relation.TransGen rt.childLink ((b : Nat) : Int) ((a : Nat) : Int)) :=
    ⟨fun _ _ _ hab hbc => Relation.TransGen.trans hbc hab⟩
  haveI : IsIrrefl (Fin rt.nodes.length) (fun a b =>
      Relation.TransGen rt.childLink ((b : Nat) : Int) ((a : Nat) : Int)) :=
    ⟨fun a haa => h.acyclic _ haa⟩
  exact Finite.wellFounded_of_trans_of_irrefl _

/-- A walk that moves from a non-leaf node to one of its two children settles: from
some fuel on its outcome no longer changes, and it is either a leaf index or the
fault of a lookup that failed at a non-leaf node of the tree. -/
theorem RegTree.Topology.walk_settles {rt : RegTree} (h : rt.Topology)
    (next : Node → Option Int) (loop : Nat → Int → Node → Run Int)
    (hnext : ∀ i n j, rt.nodeAt i = some n → next n = some j → j = n.cleft_ ∨ j = n.cright_)
    (hleaf : ∀ fuel pid n, n._isLeaf = true → loop fuel pid n = Run.done pid)
    (hfault : ∀ fuel pid n, n._isLeaf = false → next n = none →
      loop (fuel + 1) pid n = Run.fault)
    (hstep : ∀ fuel pid n j m, n._isLeaf = false → next n = some j → rt.nodeAt j = some m →
      loop (fuel + 1) pid n = loop fuel j m)
    (pid : Int) (n : Node) (hpid : rt.nodeAt pid = some n) :
    ∃ F r, (∀ fuel, F ≤ fuel → loop fuel pid n = r) ∧
      ((∃ i leaf, r = Run.done i ∧ rt.nodeAt i = some leaf ∧ leaf._isLeaf = true) ∨
       (r = Run.fault ∧ ∃ i m, rt.nodeAt i = some m ∧ m._isLeaf = false ∧ next m = none)) := by
  have key : ∀ a : Fin rt.nodes.length, ∀ n, rt.nodeAt ((a : Nat) : Int) = some n →
      ∃ F r, (∀ fuel, F ≤ fuel → loop fuel ((a : Nat) : Int) n = r) ∧
        ((∃ i leaf, r = Run.done i ∧ rt.nodeAt i = some leaf ∧ leaf._isLeaf = true) ∨
         (r = Run.fault ∧ ∃ i m, rt.nodeAt i = some m ∧ m._isLeaf = false ∧ next m = none)) := by
    intro a
    induction a using h.wellFounded.induction with
    | _ a ih =>
      intro n hn
      cases hl : n._isLeaf with
      | true =>
        exact ⟨0, Run.done _, fun fuel _ => hleaf fuel _ n hl, Or.inl ⟨_, n, rfl, hn, hl⟩⟩
      | false =>
        cases hx : next n with
        | none =>
          refine ⟨1, Run.fault, ?_, Or.inr ⟨rfl, _, n, hn, hl, hx⟩⟩
          intro fuel hf
          obtain ⟨k, rfl⟩ : ∃ k, fuel = k + 1 := ⟨fuel - 1, by omega⟩
          exact hfault k _ n hl hx
        | some j =>
          have hj := hnext _ n j hn hx
          have hvalid := h.children_valid _ n hn hl
          have hjs : (rt.nodeAt j).isSome := by
            rcases hj with hj | hj <;> rw [hj]
            · exact hvalid.1
            · exact hvalid.2
          obtain ⟨m, hm⟩ := Option.isSome_iff_exists.mp hjs
          have hb := RegTree.nodeAt_bounds hm
          have hcast : ((j.toNat : Nat) : Int) = j := Int.toNat_of_nonneg hb.1
          have hlink : rt.childLink ((a : Nat) : Int) j := ⟨n, hn, hl, hj⟩
          obtain ⟨F, r, hF, hr⟩ := ih ⟨j.toNat, hb.2⟩
            (by simpa [hcast] using Relation.TransGen.single hlink) m (by simpa [hcast] using hm)
          refine ⟨F + 1, r, ?_, hr⟩
          intro fuel hf
          obtain ⟨k, rfl⟩ : ∃ k, fuel = k + 1 := ⟨fuel - 1, by omega⟩
          rw [hstep k _ n j m hl hx hm]
          have := hF k (by omega)
          simpa [hcast] using this
  have hb := RegTree.nodeAt_bounds hpid
  have hcast : ((pid.toNat : Nat) : Int) = pid := Int.toNat_of_nonneg hb.1
  have := key ⟨pid.toNat, hb.2⟩ n (by simpa [hcast] using hpid)
  simpa [hcast] using this

theorem RegTree.Topology.nextFromArray_child {rt : RegTree} (h : rt.Topology)
    (values : List F32) (z : Bool) (i : Int) (n : Node) (j : Int)
    (hn : rt.nodeAt i = some n) (hj : n.nextFromArray values z = some j) :
    j = n.cleft_ ∨ j = n.cright_ := by
  have hd := h.default_is_child i n hn
  unfold Node.nextFromArray at hj
  split at hj
  · cases hj; exact hd
  · split at hj
    · cases hj
    · split at hj
      · cases hj; exact hd
      · split at hj
        · cases hj; exact Or.inl rfl
        · cases hj; exact Or.inr rfl

theorem RegTree.Topology.nextFromMap_child {rt : RegTree} (h : rt.Topology)
    (values : GoMap) (i : Int) (n : Node) (hn : rt.nodeAt i = some n) :
    n.nextFromMap values = n.cleft_ ∨ n.nextFromMap values = n.cright_ := by
  have hd := h.default_is_child i n hn
  unfold Node.nextFromMap
  split
  · exact hd
  · split
    · exact hd
    · split
      · exact Or.inl rfl
      · exact Or.inr rfl

theorem RegTree.arrayIndexLoop_leaf (rt : RegTree) (values : List F32) (z : Bool)
    (fuel : Nat) (pid : Int) (n : Node) (hl : n._isLeaf = true) :
    RegTree.GetLeafIndexByArray.loop rt values z fuel pid n = Run.done pid := by
  cases fuel <;> simp [RegTree.GetLeafIndexByArray.loop, hl]

theorem RegTree.mapIndexLoop_leaf (rt : RegTree) (values : GoMap)
    (fuel : Nat) (pid : Int) (n : Node) (hl : n._isLeaf = true) :
    RegTree.GetLeafIndexByMap.loop rt values fuel pid n = Run.done pid := by
  cases fuel <;> simp [RegTree.GetLeafIndexByMap.loop, hl]

/-- The dense index walk settles on a leaf index, or faults at a non-leaf node
whose split feature is negative. -/
theorem RegTree.Topology.arrayWalk_settles {rt : RegTree} (h : rt.Topology)
    (values : List F32) (z : Bool) (pid : Int) (n : Node) (hpid : rt.nodeAt pid = some n) :
    ∃ F r, (∀ fuel, F ≤ fuel → RegTree.GetLeafIndexByArray.loop rt values z fuel pid n = r) ∧
      ((∃ i leaf, r = Run.done i ∧ rt.nodeAt i = some leaf ∧ leaf._isLeaf = true) ∨
       (r = Run.fault ∧
          ∃ i m, rt.nodeAt i = some m ∧ m._isLeaf = false ∧ m._splitIndex < 0)) := by
  obtain ⟨F, r, hF, hr⟩ := h.walk_settles (fun m => m.nextFromArray values z)
    (RegTree.GetLeafIndexByArray.loop rt values z)
    (fun i m j hm hj => h.nextFromArray_child values z i m j hm hj)
    (fun fuel p m hl => RegTree.arrayIndexLoop_leaf rt values z fuel p m hl)
    (fun fuel p m hl hx => by simp [RegTree.GetLeafIndexByArray.loop, hl, hx])
    (fun fuel p m j m2 hl hx hm => by simp [RegTree.GetLeafIndexByArray.loop, hl, hx, hm])
    pid n hpid
  refine ⟨F, r, hF, ?_⟩
  rcases hr with hr | ⟨hr, i, m, hm, hl, hx⟩
  · exact Or.inl hr
  · exact Or.inr ⟨hr, i, m, hm, hl, (Node.nextFromArray_eq_none_iff m values z).mp hx⟩

/-- The sparse index walk settles on a leaf index. -/
theorem RegTree.Topology.mapWalk_settles {rt : RegTree} (h : rt.Topology)
    (values : GoMap) (pid : Int) (n : Node) (hpid : rt.nodeAt pid = some n) :
    ∃ F i leaf, rt.nodeAt i = some leaf ∧ leaf._isLeaf = true ∧
      ∀ fuel, F ≤ fuel → RegTree.GetLeafIndexByMap.loop rt values fuel pid n = Run.done i := by
  obtain ⟨F, r, hF, hr⟩ := h.walk_settles (fun m => some (m.nextFromMap values))
    (RegTree.GetLeafIndexByMap.loop rt values)
    (fun i m j hm hj => by
      cases hj
      exact h.nextFromMap_child values i m hm)
    (fun fuel p m hl => RegTree.mapIndexLoop_leaf rt values fuel p m hl)
    (fun fuel p m hl hx => by cases hx)
    (fun fuel p m j m2 hl hx hm => by
      cases hx
      simp [RegTree.GetLeafIndexByMap.loop, hl, hm])
    pid n hpid
  rcases hr with ⟨i, leaf, rfl, hleaf, hl⟩ | ⟨_, i, m, _, _, hx⟩
  · exact ⟨F, i, leaf, hleaf, hl, hF⟩
  · cases hx

/-- The dense value loop is the dense index loop followed by the projection. -/
theorem RegTree.arrayValueLoop_eq (rt : RegTree) (values : List F32) (z : Bool) :
    ∀ (fuel : Nat) (pid : Int) (n : Node), rt.nodeAt pid = some n →
      RegTree.GetLeafByArray.loop rt values z fuel n =
        (RegTree.GetLeafIndexByArray.loop rt values z fuel pid n).bind rt.leafValueAt := by
  intro fuel
  induction fuel with
  | zero =>
    intro pid n hn
    cases hl : n._isLeaf <;>
      simp [RegTree.GetLeafByArray.loop, RegTree.GetLeafIndexByArray.loop, hl, Run.bind,
        RegTree.leafValueAt, hn]
  | succ k ih =>
    intro pid n hn
    cases hl : n._isLeaf with
    | true =>
      simp [RegTree.GetLeafByArray.loop, RegTree.GetLeafIndexByArray.loop, hl, Run.bind,
        RegTree.leafValueAt, hn]
    | false =>
      cases hx : n.nextFromArray values z with
      | none =>
        simp [RegTree.GetLeafByArray.loop, RegTree.GetLeafIndexByArray.loop, hl, hx, Run.bind]
      | some j =>
        cases hm : rt.nodeAt j with
        | none =>
          simp [RegTree.GetLeafByArray.loop, RegTree.GetLeafIndexByArray.loop, hl, hx, hm,
            Run.bind]
        | some m =>
          simp [RegTree.GetLeafByArray.loop, RegTree.GetLeafIndexByArray.loop, hl, hx, hm,
            ih j m hm]

/-- The sparse value loop is the sparse index loop followed by the projection. -/
theorem RegTree.mapValueLoop_eq (rt : RegTree) (values : GoMap) :
    ∀ (fuel : Nat) (pid : Int) (n : Node), rt.nodeAt pid = some n →
      RegTree.GetLeafByMap.loop rt values fuel n =
        (RegTree.GetLeafIndexByMap.loop rt values fuel pid n).bind rt.leafValueAt := by
  intro fuel
  induction fuel with
  | zero =>
    intro pid n hn
    cases hl : n._isLeaf <;>
      simp [RegTree.GetLeafByMap.loop, RegTree.GetLeafIndexByMap.loop, hl, Run.bind,
        RegTree.leafValueAt, hn]
  | succ k ih =>
    intro pid n hn
    cases hl : n._isLeaf with
    | true =>
      simp [RegTree.GetLeafByMap.loop, RegTree.GetLeafIndexByMap.loop, hl, Run.bind,
        RegTree.leafValueAt, hn]
    | false =>
      cases hm : rt.nodeAt (n.nextFromMap values) with
      | none =>
        simp [RegTree.GetLeafByMap.loop, RegTree.GetLeafIndexByMap.loop, hl, hm, Run.bind]
      | some m =>
        simp [RegTree.GetLeafByMap.loop, RegTree.GetLeafIndexByMap.loop, hl, hm,
          ih (n.nextFromMap values) m hm]

/-! ## Three-node trees satisfy the topology invariant -/

theorem RegTree.nodeAt_three (rt : RegTree) (n0 n1 n2 : Node)
    (hnodes : rt.nodes = [some n0, some n1, some n2]) (i : Int) (n : Node)
    (h : rt.nodeAt i = some n) :
    (i = 0 ∧ n = n0) ∨ (i = 1 ∧ n = n1) ∨ (i = 2 ∧ n = n2) := by
  have hb := RegTree.nodeAt_bounds h
  obtain ⟨k, rfl⟩ := Int.eq_ofNat_of_zero_le hb.1
  have hk : k < 3 := by simpa [hnodes] using hb.2
  interval_cases k
  · left; simpa [RegTree.nodeAt, goIndex, hnodes, eq_comm] using h
  · right; left; simpa [RegTree.nodeAt, goIndex, hnodes, eq_comm] using h
  · right; right; simpa [RegTree.nodeAt, goIndex, hnodes, eq_comm] using h

/-- A root over two leaves satisfies the topology invariant. -/
theorem RegTree.Topology.of_three_nodes (rt : RegTree) (n0 n1 n2 : Node)
    (hnodes : rt.nodes = [some n0, some n1, some n2])
    (h0left : n0.cleft_ = 1) (h0right : n0.cright_ = 2)
    (h0def : n0._defaultNext = 1 ∨ n0._defaultNext = 2)
    (h1leaf : n1._isLeaf = true) (h1def : n1._defaultNext = n1.cleft_ ∨ n1._defaultNext = n1.cright_)
    (h2leaf : n2._isLeaf = true) (h2def : n2._defaultNext = n2.cleft_ ∨ n2._defaultNext = n2.cright_) :
    rt.Topology := by
  have hat1 : rt.nodeAt 1 = some n1 := by simp [RegTree.nodeAt, goIndex, hnodes]
  have hat2 : rt.nodeAt 2 = some n2 := by simp [RegTree.nodeAt, goIndex, hnodes]
  have hlink : ∀ i j, rt.childLink i j → i = 0 ∧ (j = 1 ∨ j = 2) := by
    rintro i j ⟨n, hn, hl, hj⟩
    rcases RegTree.nodeAt_three rt n0 n1 n2 hnodes i n hn with ⟨hi, rfl⟩ | ⟨_, rfl⟩ | ⟨_, rfl⟩
    · exact ⟨hi, by simpa [h0left, h0right] using hj⟩
    · simp [h1leaf] at hl
    · simp [h2leaf] at hl
  have hreach : ∀ i j, Relation.TransGen rt.childLink i j → i = 0 ∧ (j = 1 ∨ j = 2) := by
    intro i j hij
    induction hij with
    | single hs => exact hlink _ _ hs
    | tail _ hs ih =>
      have := (hlink _ _ hs).1
      omega
  refine ⟨?_, ?_, ?_⟩
  · intro i n hn hl
    rcases RegTree.nodeAt_three rt n0 n1 n2 hnodes i n hn with ⟨_, rfl⟩ | ⟨_, rfl⟩ | ⟨_, rfl⟩
    · simp [h0left, h0right, hat1, hat2]
    · simp [h1leaf] at hl
    · simp [h2leaf] at hl
  · intro i n hn
    rcases RegTree.nodeAt_three rt n0 n1 n2 hnodes i n hn with ⟨_, rfl⟩ | ⟨_, rfl⟩ | ⟨_, rfl⟩
    · simpa [h0left, h0right] using h0def
    · exact h1def
    · exact h2def
  · intro i hii
    have := hreach i i hii
    omega

theorem sampleTree_topology : sampleTree.Topology :=
  RegTree.Topology.of_three_nodes sampleTree sampleRoot (sampleLeaf F32.one)
    (sampleLeaf F32.two) rfl rfl rfl (Or.inl rfl) rfl (Or.inl rfl) rfl (Or.inl rfl)

theorem sampleTree_splitsNonneg : sampleTree.SplitsNonneg := by
  intro i n hn hl
  rcases RegTree.nodeAt_three sampleTree sampleRoot (sampleLeaf F32.one) (sampleLeaf F32.two) rfl i n hn with ⟨_, rfl⟩ | ⟨_, rfl⟩ | ⟨_, rfl⟩
  · decide
  · simp [sampleLeaf] at hl
  · simp [sampleLeaf] at hl

/-! ## C4: the leaf-value entry points are the index walk followed by a projection -/

/-- C4: `GetLeafByArray(values, z)` is `GetLeafIndexByArray(values, z, 0)` followed
by the projection `nodes[i].leaf_value`, and `GetLeafByMap(m, r)` is
`GetLeafIndexByMap(m, r)` followed by the same projection: the two sides have the
same outcome on every tree and at every fuel. Under the topology invariant and
from a valid root the sparse pair returns, `GetLeafByMap` giving the `leaf_value`
of the node whose index `GetLeafIndexByMap` gives; the dense pair returns in the
same way, or both calls fault together at a non-leaf node whose split feature is
negative. -/
theorem leaf_value_is_projection_of_leaf_index (rt : RegTree) :
    (∀ fuel values z, rt.GetLeafByArray fuel values z =
        (rt.GetLeafIndexByArray fuel values z 0).bind rt.leafValueAt) ∧
    (∀ fuel m r, rt.GetLeafByMap fuel m r =
        (rt.GetLeafIndexByMap fuel m r).bind rt.leafValueAt) ∧
    (rt.Topology → ∀ m r, (rt.nodeAt r).isSome →
      ∃ F i leaf, rt.nodeAt i = some leaf ∧ ∀ fuel, F ≤ fuel →
        rt.GetLeafIndexByMap fuel m r = Run.done i ∧
        rt.GetLeafByMap fuel m r = Run.done leaf.leaf_value) ∧
    (rt.Topology → (rt.nodeAt 0).isSome → ∀ values z,
      ∃ F, (∃ i leaf, rt.nodeAt i = some leaf ∧ ∀ fuel, F ≤ fuel →
              rt.GetLeafIndexByArray fuel values z 0 = Run.done i ∧
              rt.GetLeafByArray fuel values z = Run.done leaf.leaf_value) ∨
           ((∃ i m, rt.nodeAt i = some m ∧ m._isLeaf = false ∧ m._splitIndex < 0) ∧
             ∀ fuel, F ≤ fuel →
              rt.GetLeafIndexByArray fuel values z 0 = Run.fault ∧
              rt.GetLeafByArray fuel values z = Run.fault)) := by
  have harr : ∀ fuel values z, rt.GetLeafByArray fuel values z =
      (rt.GetLeafIndexByArray fuel values z 0).bind rt.leafValueAt := by
    intro fuel values z
    unfold RegTree.GetLeafByArray RegTree.GetLeafIndexByArray
    cases h0 : rt.nodeAt 0 with
    | none => simp [Run.bind]
    | some n => simpa using RegTree.arrayValueLoop_eq rt values z fuel 0 n h0
  have hmap : ∀ fuel m r, rt.GetLeafByMap fuel m r =
      (rt.GetLeafIndexByMap fuel m r).bind rt.leafValueAt := by
    intro fuel m r
    unfold RegTree.GetLeafByMap RegTree.GetLeafIndexByMap
    cases h0 : rt.nodeAt r with
    | none => simp [Run.bind]
    | some n => simpa using RegTree.mapValueLoop_eq rt m fuel r n h0
  refine ⟨harr, hmap, ?_, ?_⟩
  · intro htop m r hr
    obtain ⟨n, hn⟩ := Option.isSome_iff_exists.mp hr
    obtain ⟨F, i, leaf, hleaf, _, hF⟩ := htop.mapWalk_settles m r n hn
    refine ⟨F, i, leaf, hleaf, fun fuel hf => ?_⟩
    have hidx : rt.GetLeafIndexByMap fuel m r = Run.done i := by
      simp [RegTree.GetLeafIndexByMap, hn, hF fuel hf]
    exact ⟨hidx, by rw [hmap, hidx]; simp [Run.bind, RegTree.leafValueAt, hleaf]⟩
  · intro htop hr values z
    obtain ⟨n, hn⟩ := Option.isSome_iff_exists.mp hr
    obtain ⟨F, r, hF, hcase⟩ := htop.arrayWalk_settles values z 0 n hn
    refine ⟨F, ?_⟩
    rcases hcase with ⟨i, leaf, rfl, hleaf, _⟩ | ⟨rfl, hbad⟩
    · left
      refine ⟨i, leaf, hleaf, fun fuel hf => ?_⟩
      have hidx : rt.GetLeafIndexByArray fuel values z 0 = Run.done i := by
        simp [RegTree.GetLeafIndexByArray, hn, hF fuel hf]
      exact ⟨hidx, by rw [harr, hidx]; simp [Run.bind, RegTree.leafValueAt, hleaf]⟩
    · right
      refine ⟨hbad, fun fuel hf => ?_⟩
      have hidx : rt.GetLeafIndexByArray fuel values z 0 = Run.fault := by
        simp [RegTree.GetLeafIndexByArray, hn, hF fuel hf]
      exact ⟨hidx, by rw [harr, hidx]; simp [Run.bind]⟩

/-- Witness for C4 on the sample tree: the four conjuncts at the sample tree, the
invariant and the validity of the roots 0 and 1 being discharged. -/
theorem leaf_value_is_projection_of_leaf_index_witness :
    sampleTree.GetLeafByArray 1 [F32.three] false =
        (sampleTree.GetLeafIndexByArray 1 [F32.three] false 0).bind sampleTree.leafValueAt ∧
    sampleTree.GetLeafByMap 1 (sparseAt0 F32.three) 0 =
        (sampleTree.GetLeafIndexByMap 1 (sparseAt0 F32.three) 0).bind sampleTree.leafValueAt ∧
    (∃ F i leaf, sampleTree.nodeAt i = some leaf ∧ ∀ fuel, F ≤ fuel →
        sampleTree.GetLeafIndexByMap fuel (sparseAt0 F32.three) 0 = Run.done i ∧
        sampleTree.GetLeafByMap fuel (sparseAt0 F32.three) 0 = Run.done leaf.leaf_value) ∧
    (∃ F, (∃ i leaf, sampleTree.nodeAt i = some leaf ∧ ∀ fuel, F ≤ fuel →
              sampleTree.GetLeafIndexByArray fuel [F32.three] false 0 = Run.done i ∧
              sampleTree.GetLeafByArray fuel [F32.three] false = Run.done leaf.leaf_value) ∨
           ((∃ i m, sampleTree.nodeAt i = some m ∧ m._isLeaf = false ∧ m._splitIndex < 0) ∧
             ∀ fuel, F ≤ fuel →
              sampleTree.GetLeafIndexByArray fuel [F32.three] false 0 = Run.fault ∧
              sampleTree.GetLeafByArray fuel [F32.three] false = Run.fault)) :=
  ⟨(leaf_value_is_projection_of_leaf_index sampleTree).1 1 [F32.three] false,
   (leaf_value_is_projection_of_leaf_index sampleTree).2.1 1 (sparseAt0 F32.three) 0,
   (leaf_value_is_projection_of_leaf_index sampleTree).2.2.1 sampleTree_topology
      (sparseAt0 F32.three) 0 (by decide),
   (leaf_value_is_projection_of_leaf_index sampleTree).2.2.2 sampleTree_topology (by decide)
      [F32.three] false⟩

/-! ## The decoders on a word stream -/

theorem wordToInt_intToWord (i : Int) (h : FitsInt32 i) : wordToInt (intToWord i) = i := by
  unfold FitsInt32 at h
  unfold wordToInt intToWord
  split <;> omega

theorem wordToF32_bits (f : F32) (h : f.Valid) : wordToF32 f.bits = f := by
  unfold F32.Valid at h
  cases f with
  | mk b => simp only [wordToF32, F32.mk.injEq]; exact Nat.mod_eq_of_lt h

theorem streamReader_ReadInt_cons (w : Nat) (ws : List Nat) :
    streamReader.ReadInt ⟨w :: ws⟩ = ((wordToInt w, none), ⟨ws⟩) := rfl

theorem streamReader_ReadInt_nil :
    streamReader.ReadInt ⟨[]⟩ = ((0, some shortRead), ⟨[]⟩) := rfl

theorem streamReader_ReadFloat_cons (w : Nat) (ws : List Nat) :
    streamReader.ReadFloat ⟨w :: ws⟩ = ((wordToF32 w, none), ⟨ws⟩) := rfl

theorem streamReader_ReadFloat_nil :
    streamReader.ReadFloat ⟨[]⟩ = ((F32.zero, some shortRead), ⟨[]⟩) := rfl

/-- The node decoder on a stream that holds the five words of a record. -/
theorem newNode_stream (p l r x f : Nat) (rest : List Nat) :
    newNode streamReader ⟨p :: l :: r :: x :: f :: rest⟩ =
      ((NodeRecord.toNode ⟨wordToInt p, wordToInt l, wordToInt r, wordToInt x, wordToF32 f⟩,
        none), ⟨rest⟩) := by
  by_cases hl : wordToInt l = -1
  · simp [newNode, streamReader_ReadInt_cons, streamReader_ReadFloat_cons, newNode.finish,
      NodeRecord.toNode, Node.is_leaf, Node.cdefault, Node.default_left, Node.split_index,
      Node.new, hl]
  · simp [newNode, streamReader_ReadInt_cons, streamReader_ReadFloat_cons, newNode.finish,
      NodeRecord.toNode, Node.is_leaf, Node.cdefault, Node.default_left, Node.split_index,
      Node.new, hl]

/-- The node decoder on any stream: the error is `nil` exactly when the four
integers are there, whether or not the float is, and five words are consumed (all
of them when fewer are left). -/
theorem newNode_stream_error (s : Stream) :
    ((newNode streamReader s).1.2 = none ↔ 4 ≤ s.words.length) ∧
    (newNode streamReader s).2 = ⟨s.words.drop 5⟩ := by
  rcases s with ⟨ws⟩
  rcases ws with _ | ⟨p, _ | ⟨l, _ | ⟨r, _ | ⟨x, _ | ⟨f, rest⟩⟩⟩⟩⟩
  · simp [newNode, streamReader_ReadInt_nil]
  · simp [newNode, streamReader_ReadInt_cons, streamReader_ReadInt_nil]
  · simp [newNode, streamReader_ReadInt_cons, streamReader_ReadInt_nil]
  · simp [newNode, streamReader_ReadInt_cons, streamReader_ReadInt_nil]
  · by_cases hl : wordToInt l = -1 <;>
      simp [newNode, streamReader_ReadInt_cons, streamReader_ReadFloat_nil, newNode.finish,
        Node.is_leaf, Node.new, hl]
  · simp [newNode_stream]

/-- The statistics decoder on a stream that holds the four words of a record. -/
theorem newRTreeNodeStat_stream (a b c d : Nat) (rest : List Nat) :
    newRTreeNodeStat streamReader ⟨a :: b :: c :: d :: rest⟩ =
      ((⟨wordToF32 a, wordToF32 b, wordToF32 c, wordToInt d⟩, none), ⟨rest⟩) := by
  simp [newRTreeNodeStat, streamReader_ReadInt_cons, streamReader_ReadFloat_cons,
    RTreeNodeStat.new]

/-- The statistics decoder on any stream: it succeeds exactly when four words are
left, and consumes four words (all of them when fewer are left). -/
theorem newRTreeNodeStat_stream_error (s : Stream) :
    ((newRTreeNodeStat streamReader s).1.2 = none ↔ 4 ≤ s.words.length) ∧
    (newRTreeNodeStat streamReader s).2 = ⟨s.words.drop 4⟩ := by
  rcases s with ⟨ws⟩
  rcases ws with _ | ⟨a, _ | ⟨b, _ | ⟨c, _ | ⟨d, rest⟩⟩⟩⟩
  · simp [newRTreeNodeStat, streamReader_ReadFloat_nil]
  · simp [newRTreeNodeStat, streamReader_ReadFloat_cons, streamReader_ReadFloat_nil]
  · simp [newRTreeNodeStat, streamReader_ReadFloat_cons, streamReader_ReadFloat_nil]
  · simp [newRTreeNodeStat, streamReader_ReadFloat_cons, streamReader_ReadInt_nil]
  · simp [newRTreeNodeStat_stream]

theorem streamReader_ReadIntArray_ok (k : Nat) (ws : List Nat) (h : k ≤ ws.length) :
    streamReader.ReadIntArray k ⟨ws⟩ = (((ws.take k).map wordToInt, none), ⟨ws.drop k⟩) := by
  simp [streamReader, h]

theorem streamReader_ReadIntArray_short (k : Nat) (ws : List Nat) (h : ws.length < k) :
    streamReader.ReadIntArray k ⟨ws⟩ = (([], some shortRead), ⟨[]⟩) := by
  have : ¬ k ≤ ws.length := by omega
  simp [streamReader, this]

/-- The header decoder on a stream of at least 37 words. -/
theorem newParam_stream (w0 w1 w2 w3 w4 w5 : Nat) (ws : List Nat) (h : 31 ≤ ws.length) :
    newParam streamReader ⟨w0 :: w1 :: w2 :: w3 :: w4 :: w5 :: ws⟩ =
      ((⟨wordToInt w0, wordToInt w1, wordToInt w2, wordToInt w3, wordToInt w4, wordToInt w5,
         (ws.take 31).map wordToInt⟩, none), ⟨ws.drop 31⟩) := by
  simp [newParam, streamReader_ReadInt_cons, streamReader_ReadIntArray_ok 31 ws h, Param.new]

/-- The header decoder on a stream of fewer than 37 words fails with the short-read
error and leaves the stream exhausted. -/
theorem newParam_stream_short (s : Stream) (h : s.words.length < 37) :
    ∃ p, newParam streamReader s = ((p, some shortRead), ⟨[]⟩) := by
  rcases s with ⟨ws⟩
  rcases ws with _ | ⟨w0, _ | ⟨w1, _ | ⟨w2, _ | ⟨w3, _ | ⟨w4, _ | ⟨w5, ws⟩⟩⟩⟩⟩⟩
  · exact ⟨_, by simp [newParam, streamReader_ReadInt_nil]; rfl⟩
  · exact ⟨_, by simp [newParam, streamReader_ReadInt_cons, streamReader_ReadInt_nil]; rfl⟩
  · exact ⟨_, by simp [newParam, streamReader_ReadInt_cons, streamReader_ReadInt_nil]; rfl⟩
  · exact ⟨_, by simp [newParam, streamReader_ReadInt_cons, streamReader_ReadInt_nil]; rfl⟩
  · exact ⟨_, by simp [newParam, streamReader_ReadInt_cons, streamReader_ReadInt_nil]; rfl⟩
  · exact ⟨_, by simp [newParam, streamReader_ReadInt_cons, streamReader_ReadInt_nil]; rfl⟩
  · have hws : ws.length < 31 := by
      simp only [List.length_cons] at h
      omega
    exact ⟨_, by
      simp [newParam, streamReader_ReadInt_cons, streamReader_ReadIntArray_short 31 ws hws]
      rfl⟩

/-! ## The two loops of `LoadModel` on a word stream -/

/-- The node loop on any stream: it ends without error exactly when every record
but possibly the float of the last one is there, and it consumes five words per
record (all of them when fewer are left). -/
theorem loadNodes_stream_error : ∀ (k i : Nat) (nodes : List (Option Node)) (s : Stream),
    ((RegTree.loadNodes streamReader k i nodes s).1.2 = none ↔
        (k = 0 ∨ 5 * k ≤ s.words.length + 1)) ∧
    (RegTree.loadNodes streamReader k i nodes s).2 = ⟨s.words.drop (5 * k)⟩ := by
  intro k
  induction k with
  | zero => intro i nodes s; simp [RegTree.loadNodes]
  | succ k ih =>
    intro i nodes s
    have hnode := newNode_stream_error s
    rcases hres : newNode streamReader s with ⟨⟨nd, err⟩, s2⟩
    rw [hres] at hnode
    simp only at hnode
    cases err with
    | some e =>
      have hlen : ¬ 4 ≤ s.words.length := fun h => by simpa using hnode.1.mpr h
      have hdrop : s.words.drop (5 * (k + 1)) = [] := by
        apply List.drop_eq_nil_of_le; omega
      have hdrop5 : s.words.drop 5 = [] := by
        apply List.drop_eq_nil_of_le; omega
      simp only [RegTree.loadNodes, hres, hnode.2, hdrop, hdrop5]
      constructor
      · constructor
        · intro h; cases h
        · intro h; omega
      · trivial
    | none =>
      have hlen : 4 ≤ s.words.length := hnode.1.mp rfl
      have hrec := ih (i + 1) (nodes.set i (some nd)) s2
      simp only [RegTree.loadNodes, hres]
      rw [hnode.2] at hrec ⊢
      refine ⟨?_, ?_⟩
      · rw [hrec.1]
        simp only [List.length_drop]
        omega
      · rw [hrec.2]
        simp only [List.drop_drop]
        congr 2
        omega

/-- The statistics loop on any stream: it ends without error exactly when every
record is there, and it consumes four words per record (all of them when fewer are
left). -/
theorem loadStats_stream_error :
    ∀ (k i : Nat) (stats : List (Option RTreeNodeStat)) (s : Stream),
    ((RegTree.loadStats streamReader k i stats s).1.2 = none ↔ 4 * k ≤ s.words.length) ∧
    (RegTree.loadStats streamReader k i stats s).2 = ⟨s.words.drop (4 * k)⟩ := by
  intro k
  induction k with
  | zero => intro i stats s; simp [RegTree.loadStats]
  | succ k ih =>
    intro i stats s
    have hstat := newRTreeNodeStat_stream_error s
    rcases hres : newRTreeNodeStat streamReader s with ⟨⟨st, err⟩, s2⟩
    rw [hres] at hstat
    simp only at hstat
    cases err with
    | some e =>
      have hlen : ¬ 4 ≤ s.words.length := fun h => by simpa using hstat.1.mpr h
      have hdrop : s.words.drop (4 * (k + 1)) = [] := by
        apply List.drop_eq_nil_of_le; omega
      have hdrop4 : s.words.drop 4 = [] := by
        apply List.drop_eq_nil_of_le; omega
      simp only [RegTree.loadStats, hres, hstat.2, hdrop, hdrop4]
      constructor
      · constructor
        · intro h; cases h
        · intro h; omega
      · trivial
    | none =>
      have hlen : 4 ≤ s.words.length := hstat.1.mp rfl
      have hrec := ih (i + 1) (stats.set i (some st)) s2
      simp only [RegTree.loadStats, hres]
      rw [hstat.2] at hrec ⊢
      refine ⟨?_, ?_⟩
      · rw [hrec.1]
        simp only [List.length_drop]
        omega
      · rw [hrec.2]
        simp only [List.drop_drop]
        congr 2
        omega

theorem list_set_append_replicate {α : Type} (pre : List (Option α)) (k : Nat) (x : Option α) :
    (pre ++ List.replicate (k + 1) none).set pre.length x =
      (pre ++ [x]) ++ List.replicate k none := by
  simp [List.set_append, List.replicate_succ]

/-- The node loop on the stream of a list of records: slot by slot, the nodes built
from the records, in order, the words after the records being left unread. -/
theorem loadNodes_stream (recs : List NodeRecord) :
    (∀ r ∈ recs, r.Fits) → ∀ (pre : List (Option Node)) (rest : List Nat),
    RegTree.loadNodes streamReader recs.length pre.length
        (pre ++ List.replicate recs.length none)
        ⟨(recs.map NodeRecord.encode).flatten ++ rest⟩ =
      ((pre ++ recs.map (fun r => some r.toNode), none), ⟨rest⟩) := by
  induction recs with
  | nil => intro _ pre rest; simp [RegTree.loadNodes]
  | cons r rs ih =>
    intro hfit pre rest
    have hr : r.Fits := hfit r (List.mem_cons_self _ _)
    obtain ⟨h1, h2, h3, h4, h5⟩ := hr
    have hnode : newNode streamReader
        ⟨((r :: rs).map NodeRecord.encode).flatten ++ rest⟩ =
        ((r.toNode, none), ⟨(rs.map NodeRecord.encode).flatten ++ rest⟩) := by
      simp only [List.map_cons, List.flatten_cons, NodeRecord.encode, List.cons_append,
        List.nil_append, List.append_assoc, newNode_stream, wordToInt_intToWord _ h1,
        wordToInt_intToWord _ h2, wordToInt_intToWord _ h3, wordToInt_intToWord _ h4,
        wordToF32_bits _ h5]
    have hrec := ih (fun x hx => hfit x (List.mem_cons_of_mem _ hx)) (pre ++ [some r.toNode]) rest
    simp only [List.length_cons, RegTree.loadNodes, hnode, list_set_append_replicate]
    simp only [List.length_append, List.length_singleton] at hrec
    rw [hrec]
    simp

/-- The statistics loop on the stream of a list of records. -/
theorem loadStats_stream (stats : List RTreeNodeStat) :
    (∀ st ∈ stats, st.Fits) → ∀ (pre : List (Option RTreeNodeStat)) (rest : List Nat),
    RegTree.loadStats streamReader stats.length pre.length
        (pre ++ List.replicate stats.length none)
        ⟨(stats.map RTreeNodeStat.encode).flatten ++ rest⟩ =
      ((pre ++ stats.map some, none), ⟨rest⟩) := by
  induction stats with
  | nil => intro _ pre rest; simp [RegTree.loadStats]
  | cons st sts ih =>
    intro hfit pre rest
    have hst : st.Fits := hfit st (List.mem_cons_self _ _)
    obtain ⟨h1, h2, h3, h4⟩ := hst
    have hstat : newRTreeNodeStat streamReader
        ⟨((st :: sts).map RTreeNodeStat.encode).flatten ++ rest⟩ =
        ((st, none), ⟨(sts.map RTreeNodeStat.encode).flatten ++ rest⟩) := by
      simp only [List.map_cons, List.flatten_cons, RTreeNodeStat.encode, List.cons_append,
        List.nil_append, List.append_assoc, newRTreeNodeStat_stream, wordToInt_intToWord _ h4,
        wordToF32_bits _ h1, wordToF32_bits _ h2, wordToF32_bits _ h3]
    have hrec := ih (fun x hx => hfit x (List.mem_cons_of_mem _ hx)) (pre ++ [some st]) rest
    simp only [List.length_cons, RegTree.loadStats, hstat, list_set_append_replicate]
    simp only [List.length_append, List.length_singleton] at hrec
    rw [hrec]
    simp

/-! ## Allocation of the two tables -/

theorem makeSlice_of_le {α : Type} (maxLen : Nat) (n : Int) (h0 : 0 ≤ n)
    (hle : n.toNat ≤ maxLen) :
    (makeSlice maxLen n : Option (List (Option α))) = some (List.replicate n.toNat none) := by
  have h1 : ¬ n < 0 := by omega
  have h2 : ¬ maxLen < n.toNat := by omega
  simp [makeSlice, h1, h2]

theorem makeSlice_eq_none_iff {α : Type} (maxLen : Nat) (n : Int) :
    (makeSlice maxLen n : Option (List (Option α))) = none ↔ n < 0 ∨ maxLen < n.toNat := by
  unfold makeSlice
  by_cases h1 : n < 0
  · simp [h1]
  · by_cases h2 : maxLen < n.toNat
    · simp [h1, h2]
    · simp [h1, h2]

theorem makeSlice_eq_some {α : Type} (maxLen : Nat) (n : Int) (l : List (Option α))
    (h : makeSlice maxLen n = some l) :
    0 ≤ n ∧ n.toNat ≤ maxLen ∧ l = List.replicate n.toNat none := by
  unfold makeSlice at h
  by_cases h1 : n < 0
  · simp [h1] at h
  · by_cases h2 : maxLen < n.toNat
    · simp [h1, h2] at h
    · simp only [h1, h2, if_false] at h
      injection h with h
      exact ⟨by omega, by omega, h.symm⟩

/-! ## C6: load round trip and cursor position -/

theorem map_wordToInt_intToWord (xs : List Int) (h : ∀ x ∈ xs, FitsInt32 x) :
    (xs.map intToWord).map wordToInt = xs := by
  induction xs with
  | nil => rfl
  | cons x xs ih =>
    simp only [List.map_cons, wordToInt_intToWord x (h x (List.mem_cons_self _ _)),
      ih (fun y hy => h y (List.mem_cons_of_mem _ hy))]

/-- The header decoder on the encoding of a header returns that header and leaves
what follows unread. -/
theorem newParam_encode (hdr : Param) (hfit : hdr.Fits) (tail : List Nat) :
    newParam streamReader ⟨hdr.encode ++ tail⟩ = ((hdr, none), ⟨tail⟩) := by
  obtain ⟨h0, h1, h2, h3, h4, h5, hlen, hres⟩ := hfit
  have hl : 31 ≤ (List.map intToWord hdr.reserved ++ tail).length := by
    simp only [List.length_append, List.length_map, hlen]
    omega
  have hl2 : (List.map intToWord hdr.reserved).length = 31 := by
    simp only [List.length_map, hlen]
  have htake : List.take 31 (List.map intToWord hdr.reserved ++ tail) =
      List.map intToWord hdr.reserved := by
    rw [← hl2, List.take_left]
  have hdrop : List.drop 31 (List.map intToWord hdr.reserved ++ tail) = tail := by
    rw [← hl2, List.drop_left]
  simp only [Param.encode, List.cons_append, List.nil_append, newParam_stream _ _ _ _ _ _ _ hl,
    wordToInt_intToWord _ h0, wordToInt_intToWord _ h1, wordToInt_intToWord _ h2,
    wordToInt_intToWord _ h3, wordToInt_intToWord _ h4, wordToInt_intToWord _ h5, htake, hdrop,
    map_wordToInt_intToWord _ hres]

/-- C6: load round trip and cursor position. For every header whose `num_nodes` is
the number `n` of node records, `n` statistics records and any following words
`rest`, all fields fitting their four-byte slots, on every machine that grants the
two tables of `n` pointers, `LoadModel` on the stream that
lays out the header (six integers, 31 reserved integers), the node records and the
statistics records in index order returns a `nil` error; the loaded tree holds
that header, `n` nodes carrying the values of the records at the same positions
(the float as `leaf_value` in a leaf, as `split_cond` otherwise), and those `n`
statistics records; the `37 + 9 * n` words of the tree are consumed and the reader
is left exactly at `rest`. -/
theorem LoadModel_round_trip (maxLen : Nat) (rt0 : RegTree) (hdr : Param)
    (recs : List NodeRecord) (stats : List RTreeNodeStat) (rest : List Nat)
    (hhdr : hdr.Fits) (hn : hdr.num_nodes = (recs.length : Int))
    (hs : stats.length = recs.length)
    (hrecs : ∀ r ∈ recs, r.Fits) (hstats : ∀ st ∈ stats, st.Fits)
    (hmem : recs.length ≤ maxLen) :
    ∃ rt, rt0.LoadModel maxLen streamReader (treeStream hdr recs stats rest) =
        Run.done ((none, rt), ⟨rest⟩) ∧
      rt.param = some hdr ∧
      rt.nodes.length = recs.length ∧
      rt.stats.length = recs.length ∧
      (∀ (i : Nat) (h : i < recs.length), ∃ nd, rt.nodes[i]? = some (some nd) ∧
        nd.parent_ = recs[i].parent ∧ nd.cleft_ = recs[i].left ∧
        nd.cright_ = recs[i].right ∧ nd.sindex_ = recs[i].packed ∧
        (recs[i].left = -1 → nd.leaf_value = recs[i].value) ∧
        (recs[i].left ≠ -1 → nd.split_cond = recs[i].value)) ∧
      (∀ (i : Nat) (h : i < stats.length), rt.stats[i]? = some (some stats[i])) ∧
      (treeStream hdr recs stats rest).words.length = 37 + 9 * recs.length + rest.length ∧
      (treeStream hdr recs stats rest).words.drop (37 + 9 * recs.length) = rest := by
  have htoNat : hdr.num_nodes.toNat = recs.length := by rw [hn]; simp
  have hmakeN : (makeSlice maxLen hdr.num_nodes : Option (List (Option Node))) =
      some (List.replicate recs.length none) := by
    rw [← htoNat]
    exact makeSlice_of_le maxLen hdr.num_nodes (by rw [hn]; omega) (by omega)
  have hmakeS : (makeSlice maxLen hdr.num_nodes : Option (List (Option RTreeNodeStat))) =
      some (List.replicate recs.length none) := by
    rw [← htoNat]
    exact makeSlice_of_le maxLen hdr.num_nodes (by rw [hn]; omega) (by omega)
  have hnodes := loadNodes_stream recs hrecs [] ((stats.map RTreeNodeStat.encode).flatten ++ rest)
  have hstat := loadStats_stream stats hstats [] rest
  simp only [List.length_nil, List.nil_append] at hnodes hstat
  rw [hs] at hstat
  have hlenEnc : hdr.encode.length = 37 := by
    simp [Param.encode, hhdr.2.2.2.2.2.2.1]
  have hlenRecs : ∀ rs : List NodeRecord, (rs.map NodeRecord.encode).flatten.length = 5 * rs.length := by
    intro rs
    induction rs with
    | nil => rfl
    | cons r rs ih => simp [NodeRecord.encode, ih]; omega
  have hlenStats : ∀ ss : List RTreeNodeStat,
      (ss.map RTreeNodeStat.encode).flatten.length = 4 * ss.length := by
    intro ss
    induction ss with
    | nil => rfl
    | cons r rs ih => simp [RTreeNodeStat.encode, ih]; omega
  have hlen : (treeStream hdr recs stats rest).words.length =
      37 + 9 * recs.length + rest.length := by
    simp only [treeStream, List.length_append, hlenEnc, hlenRecs, hlenStats, hs]
    omega
  refine ⟨⟨some hdr, recs.map (fun r => some r.toNode), stats.map some⟩, ?_, rfl, by simp,
    by simp [hs], ?_, ?_, hlen, ?_⟩
  · simp only [RegTree.LoadModel, treeStream, newParam_encode hdr hhdr, hmakeN, hmakeS, htoNat,
      hnodes, hstat]
  · intro i h
    refine ⟨recs[i].toNode, by simp [h], rfl, rfl, rfl, rfl, ?_, ?_⟩
    · intro hl; simp [NodeRecord.toNode, hl]
    · intro hl; simp [NodeRecord.toNode, hl]
  · intro i h
    simp [h]
  · have h1 : 37 + 9 * recs.length =
        (hdr.encode ++ ((recs.map NodeRecord.encode).flatten ++
          (stats.map RTreeNodeStat.encode).flatten)).length := by
      simp only [List.length_append, hlenEnc, hlenRecs, hlenStats, hs]
      omega
    have h2 : (treeStream hdr recs stats rest).words =
        (hdr.encode ++ ((recs.map NodeRecord.encode).flatten ++
          (stats.map RTreeNodeStat.encode).flatten)) ++ rest := by
      simp [treeStream]
    rw [h2, h1, List.drop_left]

/-- Witness for C6: the sample tree's header, three node records and three
statistics records, followed by two further words that stay unread, on a machine
that grants tables of three pointers. -/
theorem LoadModel_round_trip_witness :
    ∃ rt, RegTree.empty.LoadModel 3 streamReader
          (treeStream sampleHeader sampleRecords sampleStats [7, 8]) =
        Run.done ((none, rt), ⟨[7, 8]⟩) ∧
      rt.param = some sampleHeader ∧
      rt.nodes.length = sampleRecords.length ∧
      rt.stats.length = sampleRecords.length ∧
      (∀ (i : Nat) (h : i < sampleRecords.length), ∃ nd, rt.nodes[i]? = some (some nd) ∧
        nd.parent_ = sampleRecords[i].parent ∧ nd.cleft_ = sampleRecords[i].left ∧
        nd.cright_ = sampleRecords[i].right ∧ nd.sindex_ = sampleRecords[i].packed ∧
        (sampleRecords[i].left = -1 → nd.leaf_value = sampleRecords[i].value) ∧
        (sampleRecords[i].left ≠ -1 → nd.split_cond = sampleRecords[i].value)) ∧
      (∀ (i : Nat) (h : i < sampleStats.length), rt.stats[i]? = some (some sampleStats[i])) ∧
      (treeStream sampleHeader sampleRecords sampleStats [7, 8]).words.length =
        37 + 9 * sampleRecords.length + [7, 8].length ∧
      (treeStream sampleHeader sampleRecords sampleStats [7, 8]).words.drop
        (37 + 9 * sampleRecords.length) = [7, 8] :=
  LoadModel_round_trip 3 RegTree.empty sampleHeader sampleRecords sampleStats [7, 8]
    (by decide) rfl rfl (by decide) (by decide) (by decide)

/-! ## C7: header decode -/

/-- The header decoder against any reader: it stops at the first read that fails,
returning that read's error and the reader as that read left it; when the six
integer reads succeed, its error and final state are those of the array read. -/
theorem newParam_first_failure {σ : Type} (R : ModelReader σ) (s : σ) :
    (∀ (k : Nat) (e : GoError), k < 6 →
      (∀ j, j < k → (R.ReadInt (R.afterInts j s)).1.2 = none) →
      (R.ReadInt (R.afterInts k s)).1.2 = some e →
      (newParam R s).1.2 = some e ∧ (newParam R s).2 = R.afterInts (k + 1) s) ∧
    ((∀ j, j < 6 → (R.ReadInt (R.afterInts j s)).1.2 = none) →
      (newParam R s).1.2 = (R.ReadIntArray 31 (R.afterInts 6 s)).1.2 ∧
      (newParam R s).2 = (R.ReadIntArray 31 (R.afterInts 6 s)).2 ∧
      (newParam R s).1.1 =
        ⟨(R.ReadInt (R.afterInts 0 s)).1.1, (R.ReadInt (R.afterInts 1 s)).1.1,
         (R.ReadInt (R.afterInts 2 s)).1.1, (R.ReadInt (R.afterInts 3 s)).1.1,
         (R.ReadInt (R.afterInts 4 s)).1.1, (R.ReadInt (R.afterInts 5 s)).1.1,
         (R.ReadIntArray 31 (R.afterInts 6 s)).1.1⟩) := by
  rcases h0 : R.ReadInt s with ⟨⟨v0, e0⟩, s1⟩
  rcases h1 : R.ReadInt s1 with ⟨⟨v1, e1⟩, s2⟩
  rcases h2 : R.ReadInt s2 with ⟨⟨v2, e2⟩, s3⟩
  rcases h3 : R.ReadInt s3 with ⟨⟨v3, e3⟩, s4⟩
  rcases h4 : R.ReadInt s4 with ⟨⟨v4, e4⟩, s5⟩
  rcases h5 : R.ReadInt s5 with ⟨⟨v5, e5⟩, s6⟩
  rcases h6 : R.ReadIntArray 31 s6 with ⟨⟨vs, e6⟩, s7⟩
  have a0 : R.afterInts 0 s = s := rfl
  have a1 : R.afterInts 1 s = s1 := by simp [ModelReader.afterInts, h0]
  have a2 : R.afterInts 2 s = s2 := by simp [ModelReader.afterInts, h0, h1]
  have a3 : R.afterInts 3 s = s3 := by simp [ModelReader.afterInts, h0, h1, h2]
  have a4 : R.afterInts 4 s = s4 := by simp [ModelReader.afterInts, h0, h1, h2, h3]
  have a5 : R.afterInts 5 s = s5 := by simp [ModelReader.afterInts, h0, h1, h2, h3, h4]
  have a6 : R.afterInts 6 s = s6 := by simp [ModelReader.afterInts, h0, h1, h2, h3, h4, h5]
  constructor
  · intro k e hk hprev hfail
    have p0 := hprev 0
    have p1 := hprev 1
    have p2 := hprev 2
    have p3 := hprev 3
    have p4 := hprev 4
    rw [a0, h0] at p0
    rw [a1, h1] at p1
    rw [a2, h2] at p2
    rw [a3, h3] at p3
    rw [a4, h4] at p4
    clear hprev
    interval_cases k
    · rw [a0, h0] at hfail
      simp only at hfail
      subst hfail
      simp [newParam, h0, a1]
    · rw [a1, h1] at hfail
      simp only at hfail p0
      subst hfail
      simp [newParam, h0, h1, a2, p0 (by omega)]
    · rw [a2, h2] at hfail
      simp only at hfail p0 p1
      subst hfail
      simp [newParam, h0, h1, h2, a3, p0 (by omega), p1 (by omega)]
    · rw [a3, h3] at hfail
      simp only at hfail p0 p1 p2
      subst hfail
      simp [newParam, h0, h1, h2, h3, a4, p0 (by omega), p1 (by omega), p2 (by omega)]
    · rw [a4, h4] at hfail
      simp only at hfail p0 p1 p2 p3
      subst hfail
      simp [newParam, h0, h1, h2, h3, h4, a5, p0 (by omega), p1 (by omega), p2 (by omega),
        p3 (by omega)]
    · rw [a5, h5] at hfail
      simp only at hfail p0 p1 p2 p3 p4
      subst hfail
      simp [newParam, h0, h1, h2, h3, h4, h5, a6, p0 (by omega), p1 (by omega), p2 (by omega),
        p3 (by omega), p4 (by omega)]
  · intro hall
    have p0 := hall 0 (by omega)
    have p1 := hall 1 (by omega)
    have p2 := hall 2 (by omega)
    have p3 := hall 3 (by omega)
    have p4 := hall 4 (by omega)
    have p5 := hall 5 (by omega)
    rw [a0, h0] at p0
    rw [a1, h1] at p1
    rw [a2, h2] at p2
    rw [a3, h3] at p3
    rw [a4, h4] at p4
    rw [a5, h5] at p5
    simp only at p0 p1 p2 p3 p4 p5
    subst p0 p1 p2 p3 p4 p5
    rw [a0, a1, a2, a3, a4, a5, a6]
    simp [newParam, h0, h1, h2, h3, h4, h5, h6, Param.new]

theorem Stream.words_of_length_ge (ws : List Nat) (h : 37 ≤ ws.length) :
    ∃ w0 w1 w2 w3 w4 w5 tl, ws = w0 :: w1 :: w2 :: w3 :: w4 :: w5 :: tl ∧ 31 ≤ tl.length := by
  rcases ws with _ | ⟨w0, _ | ⟨w1, _ | ⟨w2, _ | ⟨w3, _ | ⟨w4, _ | ⟨w5, tl⟩⟩⟩⟩⟩⟩ <;>
    simp only [List.length_nil, List.length_cons] at h <;> try omega
  exact ⟨w0, w1, w2, w3, w4, w5, tl, rfl, by omega⟩

/-- C7: header decode. On a word stream `newParam` succeeds if and only if at least
37 words are left; on success `num_roots`, `num_nodes`, `num_deleted`, `max_depth`,
`num_feature` and `size_leaf_vector` are the words 0 to 5 in that order, `reserved`
is the words 6 to 36 (31 of them) and exactly 37 words are consumed; on a shorter
stream the error is the short-read error. Against any reader, when a read fails
`newParam` returns the error of the first failing read and leaves the reader in
the state that read left it in, so no read is issued after it; when the six integer
reads succeed its error is that of the array read. -/
theorem newParam_decodes_header :
    (∀ s : Stream, (newParam streamReader s).1.2 = none ↔ 37 ≤ s.words.length) ∧
    (∀ s : Stream, 37 ≤ s.words.length →
      (newParam streamReader s).1.1.num_roots = wordToInt (s.words.getD 0 0) ∧
      (newParam streamReader s).1.1.num_nodes = wordToInt (s.words.getD 1 0) ∧
      (newParam streamReader s).1.1.num_deleted = wordToInt (s.words.getD 2 0) ∧
      (newParam streamReader s).1.1.max_depth = wordToInt (s.words.getD 3 0) ∧
      (newParam streamReader s).1.1.num_feature = wordToInt (s.words.getD 4 0) ∧
      (newParam streamReader s).1.1.size_leaf_vector = wordToInt (s.words.getD 5 0) ∧
      (newParam streamReader s).1.1.reserved = ((s.words.drop 6).take 31).map wordToInt ∧
      (newParam streamReader s).1.1.reserved.length = 31 ∧
      (newParam streamReader s).2 = ⟨s.words.drop 37⟩) ∧
    (∀ s : Stream, s.words.length < 37 → (newParam streamReader s).1.2 = some shortRead) ∧
    (∀ (σ : Type) (R : ModelReader σ) (s : σ),
      (∀ (k : Nat) (e : GoError), k < 6 →
        (∀ j, j < k → (R.ReadInt (R.afterInts j s)).1.2 = none) →
        (R.ReadInt (R.afterInts k s)).1.2 = some e →
        (newParam R s).1.2 = some e ∧ (newParam R s).2 = R.afterInts (k + 1) s) ∧
      ((∀ j, j < 6 → (R.ReadInt (R.afterInts j s)).1.2 = none) →
        (newParam R s).1.2 = (R.ReadIntArray 31 (R.afterInts 6 s)).1.2 ∧
        (newParam R s).2 = (R.ReadIntArray 31 (R.afterInts 6 s)).2)) := by
  have hshort : ∀ s : Stream, s.words.length < 37 →
      (newParam streamReader s).1.2 = some shortRead := by
    intro s h
    obtain ⟨p, hp⟩ := newParam_stream_short s h
    rw [hp]
  have hok : ∀ s : Stream, 37 ≤ s.words.length → (newParam streamReader s).1.2 = none := by
    rintro ⟨ws⟩ h
    obtain ⟨w0, w1, w2, w3, w4, w5, tl, rfl, htl⟩ := Stream.words_of_length_ge ws h
    rw [newParam_stream _ _ _ _ _ _ _ htl]
  refine ⟨?_, ?_, hshort, ?_⟩
  · intro s
    constructor
    · intro h
      by_contra hlt
      rw [hshort s (by omega)] at h
      cases h
    · exact hok s
  · rintro ⟨ws⟩ h
    obtain ⟨w0, w1, w2, w3, w4, w5, tl, rfl, htl⟩ := Stream.words_of_length_ge ws h
    rw [newParam_stream _ _ _ _ _ _ _ htl]
    refine ⟨rfl, rfl, rfl, rfl, rfl, rfl, rfl, ?_, rfl⟩
    simp only [List.length_map, List.length_take]
    omega
  · intro σ R s
    exact ⟨(newParam_first_failure R s).1, fun hall =>
      ⟨((newParam_first_failure R s).2 hall).1, ((newParam_first_failure R s).2 hall).2.1⟩⟩

/-- Witness for C7: the 39-word stream `0, 1, ..., 38` decodes with `num_nodes = 1`
and leaves the words `37, 38`; on the three-word stream `5, 6, 7` the fourth read is
the first to fail, its error is returned and the reader is left as that read left
it. -/
theorem newParam_decodes_header_witness :
    (newParam streamReader ⟨List.range 39⟩).1.2 = none ∧
    (newParam streamReader ⟨List.range 39⟩).1.1.num_nodes = 1 ∧
    (newParam streamReader ⟨List.range 39⟩).1.1.reserved.length = 31 ∧
    (newParam streamReader ⟨List.range 39⟩).2 = ⟨[37, 38]⟩ ∧
    (newParam streamReader ⟨List.range 36⟩).1.2 = some shortRead ∧
    ((newParam streamReader ⟨[5, 6, 7]⟩).1.2 = some shortRead ∧
      (newParam streamReader ⟨[5, 6, 7]⟩).2 = streamReader.afterInts 4 ⟨[5, 6, 7]⟩) :=
  ⟨(newParam_decodes_header.1 ⟨List.range 39⟩).mpr (by decide),
   (newParam_decodes_header.2.1 ⟨List.range 39⟩ (by decide)).2.1,
   (newParam_decodes_header.2.1 ⟨List.range 39⟩ (by decide)).2.2.2.2.2.2.2.1,
   (newParam_decodes_header.2.1 ⟨List.range 39⟩ (by decide)).2.2.2.2.2.2.2.2,
   newParam_decodes_header.2.2.1 ⟨List.range 36⟩ (by decide),
   (newParam_decodes_header.2.2.2 Stream streamReader ⟨[5, 6, 7]⟩).1 3 shortRead (by decide)
     (by decide) rfl⟩

/-! ## C8: the error of the float read in `newNode` -/

/-- Against any reader, once the four integer reads have succeeded `newNode`
returns a `nil` error, whatever the float read returned. -/
theorem newNode_error_after_four_ints {σ : Type} (R : ModelReader σ) (s : σ)
    (hall : ∀ j, j < 4 → (R.ReadInt (R.afterInts j s)).1.2 = none) :
    (newNode R s).1.2 = none ∧ (newNode R s).2 = (R.ReadFloat (R.afterInts 4 s)).2 := by
  rcases h0 : R.ReadInt s with ⟨⟨v0, e0⟩, s1⟩
  rcases h1 : R.ReadInt s1 with ⟨⟨v1, e1⟩, s2⟩
  rcases h2 : R.ReadInt s2 with ⟨⟨v2, e2⟩, s3⟩
  rcases h3 : R.ReadInt s3 with ⟨⟨v3, e3⟩, s4⟩
  rcases h4 : R.ReadFloat s4 with ⟨⟨f, e4⟩, s5⟩
  have a0 : R.afterInts 0 s = s := rfl
  have a1 : R.afterInts 1 s = s1 := by simp [ModelReader.afterInts, h0]
  have a2 : R.afterInts 2 s = s2 := by simp [ModelReader.afterInts, h0, h1]
  have a3 : R.afterInts 3 s = s3 := by simp [ModelReader.afterInts, h0, h1, h2]
  have a4 : R.afterInts 4 s = s4 := by simp [ModelReader.afterInts, h0, h1, h2, h3]
  have p0 := hall 0 (by omega)
  have p1 := hall 1 (by omega)
  have p2 := hall 2 (by omega)
  have p3 := hall 3 (by omega)
  rw [a0, h0] at p0
  rw [a1, h1] at p1
  rw [a2, h2] at p2
  rw [a3, h3] at p3
  simp only at p0 p1 p2 p3
  subst p0 p1 p2 p3
  rw [a4, h4]
  unfold newNode
  simp only [h0, h1, h2, h3]
  split <;> simp [h4, newNode.finish]

/-- C8: on the four-word stream `0, -1, -1, 0` (a leaf whose float is missing) the
four integer reads succeed and the float read fails with the short-read error, yet
`newNode` returns a `nil` error; the same happens for the split node `-1, 1, 2, 0`
whose threshold is missing. A failure of one of the four integer reads is
propagated, as on the three-word stream `0, 1, 2`. -/
theorem newNode_drops_float_read_error :
    (streamReader.ReadFloat (streamReader.afterInts 4 ⟨[0, 4294967295, 4294967295, 0]⟩)).1.2 =
        some shortRead ∧
    (newNode streamReader ⟨[0, 4294967295, 4294967295, 0]⟩).1.2 = none ∧
    (streamReader.ReadFloat (streamReader.afterInts 4 ⟨[4294967295, 1, 2, 0]⟩)).1.2 =
        some shortRead ∧
    (newNode streamReader ⟨[4294967295, 1, 2, 0]⟩).1.2 = none ∧
    (newNode streamReader ⟨[0, 1, 2]⟩).1.2 = some shortRead := by
  refine ⟨rfl, ?_, rfl, ?_, ?_⟩
  · exact (newNode_stream_error ⟨[0, 4294967295, 4294967295, 0]⟩).1.mpr (by decide)
  · exact (newNode_stream_error ⟨[4294967295, 1, 2, 0]⟩).1.mpr (by decide)
  · simp [newNode, streamReader_ReadInt_cons, streamReader_ReadInt_nil]

/-! ## C9 and C10: truncated streams -/

/-- The loader on a stream of fewer than 37 words: the short-read error, the
receiver as it was, the stream exhausted, whatever the machine grants. -/
theorem LoadModel_stream_short (maxLen : Nat) (rt : RegTree) (s : Stream)
    (h : s.words.length < 37) :
    rt.LoadModel maxLen streamReader s = Run.done ((some shortRead, rt), ⟨[]⟩) := by
  obtain ⟨p, hp⟩ := newParam_stream_short s h
  simp [RegTree.LoadModel, hp]

/-- The loader on a stream whose header is complete and announces a number of
nodes that is negative or beyond what the machine grants: the node table cannot be
made and the call does not return. -/
theorem LoadModel_stream_fault (maxLen : Nat) (rt : RegTree) (w0 w1 w2 w3 w4 w5 : Nat)
    (ws : List Nat) (h31 : 31 ≤ ws.length)
    (hn : wordToInt w1 < 0 ∨ maxLen < (wordToInt w1).toNat) :
    rt.LoadModel maxLen streamReader ⟨w0 :: w1 :: w2 :: w3 :: w4 :: w5 :: ws⟩ = Run.fault := by
  have hmake : (makeSlice maxLen (wordToInt w1) : Option (List (Option Node))) = none :=
    (makeSlice_eq_none_iff maxLen (wordToInt w1)).mpr hn
  simp only [RegTree.LoadModel, newParam_stream _ _ _ _ _ _ _ h31, hmake]

/-- The loader on a stream whose header is complete and announces `n >= 0` nodes,
on a machine that grants tables of `n` pointers: it returns, with a `nil` error
exactly when the `9 * n` words of the records are there as well. -/
theorem LoadModel_stream_error (maxLen : Nat) (rt : RegTree) (w0 w1 w2 w3 w4 w5 : Nat)
    (ws : List Nat) (h31 : 31 ≤ ws.length) (hn : 0 ≤ wordToInt w1)
    (hmem : (wordToInt w1).toNat ≤ maxLen) :
    ∃ err rt1 s1,
      rt.LoadModel maxLen streamReader ⟨w0 :: w1 :: w2 :: w3 :: w4 :: w5 :: ws⟩ =
        Run.done ((err, rt1), s1) ∧
      (err = none ↔ 31 + 9 * (wordToInt w1).toNat ≤ ws.length) := by
  have hmakeN : (makeSlice maxLen (wordToInt w1) : Option (List (Option Node))) =
      some (List.replicate (wordToInt w1).toNat none) :=
    makeSlice_of_le maxLen (wordToInt w1) hn hmem
  have hmakeS : (makeSlice maxLen (wordToInt w1) : Option (List (Option RTreeNodeStat))) =
      some (List.replicate (wordToInt w1).toNat none) :=
    makeSlice_of_le maxLen (wordToInt w1) hn hmem
  have hN := loadNodes_stream_error (wordToInt w1).toNat 0
    (List.replicate (wordToInt w1).toNat none) ⟨ws.drop 31⟩
  rcases hresN : RegTree.loadNodes streamReader (wordToInt w1).toNat 0
    (List.replicate (wordToInt w1).toNat none) ⟨ws.drop 31⟩ with ⟨⟨nodes, errN⟩, sN⟩
  rw [hresN] at hN
  simp only [List.length_drop] at hN
  cases errN with
  | some e =>
    have hrun : ∃ rt1,
        rt.LoadModel maxLen streamReader ⟨w0 :: w1 :: w2 :: w3 :: w4 :: w5 :: ws⟩ =
          Run.done ((some e, rt1), sN) := by
      simp only [RegTree.LoadModel, newParam_stream _ _ _ _ _ _ _ h31, hmakeN, hresN]
      exact ⟨_, rfl⟩
    obtain ⟨rt1, hrt1⟩ := hrun
    refine ⟨some e, rt1, sN, hrt1, ?_⟩
    · have hno : ¬ ((wordToInt w1).toNat = 0 ∨ 5 * (wordToInt w1).toNat ≤ ws.length - 31 + 1) :=
        fun hc => by simpa using hN.1.mpr hc
      constructor
      · intro hc; cases hc
      · intro hc; omega
  | none =>
    have hyes := hN.1.mp rfl
    have hS := loadStats_stream_error (wordToInt w1).toNat 0
      (List.replicate (wordToInt w1).toNat none) sN
    rcases hresS : RegTree.loadStats streamReader (wordToInt w1).toNat 0
      (List.replicate (wordToInt w1).toNat none) sN with ⟨⟨stats, errS⟩, sS⟩
    rw [hresS] at hS
    rw [hN.2] at hS
    simp only [List.length_drop] at hS
    have hrun : ∃ rt1,
        rt.LoadModel maxLen streamReader ⟨w0 :: w1 :: w2 :: w3 :: w4 :: w5 :: ws⟩ =
          Run.done ((errS, rt1), sS) := by
      simp only [RegTree.LoadModel, newParam_stream _ _ _ _ _ _ _ h31, hmakeN, hmakeS, hresN,
        hresS]
      exact ⟨_, rfl⟩
    obtain ⟨rt1, hrt1⟩ := hrun
    refine ⟨errS, rt1, sS, hrt1, ?_⟩
    · rw [hS.1]
      omega

/-- C9, as stated, fails: `hugeHeaderWords` holds exactly the 37 words of a header,
which decodes with `num_nodes = 2147483647 >= 0`, and so fewer than `37 + 9 * n`
words; `LoadModel` makes the node table before it reads any node record, so on
every machine that does not grant a table of 2147483647 pointers, one with a 32-bit
address space for instance, the `make` fails and the call does not return: no
error, nil or not, comes back. -/
theorem LoadModel_aborts_on_announced_count :
    hugeHeaderWords.words.length = 37 ∧
    (newParam streamReader hugeHeaderWords).1.2 = none ∧
    hugeHeaderWords.numNodes = 2147483647 ∧
    (hugeHeaderWords.words.length : Int) < 37 + 9 * hugeHeaderWords.numNodes ∧
    (∀ maxLen : Nat, maxLen < 2147483647 →
      RegTree.empty.LoadModel maxLen streamReader hugeHeaderWords = Run.fault) ∧
    RegTree.empty.LoadModel maxLen32 streamReader hugeHeaderWords = Run.fault ∧
    (∀ err rt1 s1,
      RegTree.empty.LoadModel maxLen32 streamReader hugeHeaderWords ≠
        Run.done ((err, rt1), s1)) := by
  have hfault : ∀ maxLen : Nat, maxLen < 2147483647 →
      RegTree.empty.LoadModel maxLen streamReader hugeHeaderWords = Run.fault := by
    intro maxLen hlt
    have hn : (wordToInt 2147483647).toNat = 2147483647 := by decide
    exact LoadModel_stream_fault maxLen RegTree.empty 1 2147483647 0 0 0 0
      (List.replicate 31 0) (by decide) (Or.inr (by rw [hn]; exact hlt))
  refine ⟨by decide, by decide, by decide, by decide, hfault, hfault maxLen32 (by decide), ?_⟩
  intro err rt1 s1 hc
  rw [hfault maxLen32 (by decide)] at hc
  cases hc

/-- C9, amended: truncation anywhere is a load failure when the tables can be made.
With the stream reader, which fails every read once the stream is exhausted,
`LoadModel` returns a non-nil error on every stream of fewer than 37 words, and on
every stream whose header is complete and announces a number `n >= 0` of nodes
that the machine grants (`n <= maxLen`) but which holds fewer than `37 + 9 * n`
words, wherever the stream ends: inside a node record, just before a node's float,
or inside a statistics record; with all `37 + 9 * n` words it returns `nil`.
Conversely, on every machine, it returns a `nil` error only if the stream holds
all `37 + 9 * n` words. When the announced number is negative or beyond what the
machine grants, the call does not return. -/
theorem LoadModel_truncated (maxLen : Nat) (rt : RegTree) (s : Stream) :
    (s.words.length < 37 →
      ∃ e rt1 s1, rt.LoadModel maxLen streamReader s = Run.done ((some e, rt1), s1)) ∧
    (37 ≤ s.words.length → 0 ≤ s.numNodes → s.numNodes ≤ (maxLen : Int) →
      ((s.words.length : Int) < 37 + 9 * s.numNodes →
        ∃ e rt1 s1, rt.LoadModel maxLen streamReader s = Run.done ((some e, rt1), s1)) ∧
      (37 + 9 * s.numNodes ≤ (s.words.length : Int) →
        ∃ rt1 s1, rt.LoadModel maxLen streamReader s = Run.done ((none, rt1), s1))) ∧
    ((∃ rt1 s1, rt.LoadModel maxLen streamReader s = Run.done ((none, rt1), s1)) →
      37 ≤ s.words.length ∧ 0 ≤ s.numNodes ∧ s.numNodes ≤ (maxLen : Int) ∧
      37 + 9 * s.numNodes ≤ (s.words.length : Int)) ∧
    (37 ≤ s.words.length → (s.numNodes < 0 ∨ (maxLen : Int) < s.numNodes) →
      rt.LoadModel maxLen streamReader s = Run.fault) := by
  have hfull : 37 ≤ s.words.length → 0 ≤ s.numNodes → s.numNodes ≤ (maxLen : Int) →
      ∃ err rt1 s1, rt.LoadModel maxLen streamReader s = Run.done ((err, rt1), s1) ∧
        (err = none ↔ 37 + 9 * s.numNodes ≤ (s.words.length : Int)) := by
    rcases s with ⟨ws⟩
    intro h hn hmem
    obtain ⟨w0, w1, w2, w3, w4, w5, tl, rfl, htl⟩ := Stream.words_of_length_ge ws h
    have hnum : (Stream.mk (w0 :: w1 :: w2 :: w3 :: w4 :: w5 :: tl)).numNodes = wordToInt w1 := rfl
    rw [hnum] at hn hmem ⊢
    obtain ⟨err, rt1, s1, hrun, herr⟩ :=
      LoadModel_stream_error maxLen rt w0 w1 w2 w3 w4 w5 tl htl hn (by omega)
    refine ⟨err, rt1, s1, hrun, ?_⟩
    rw [herr]
    simp only [List.length_cons]
    omega
  have hfault : 37 ≤ s.words.length → (s.numNodes < 0 ∨ (maxLen : Int) < s.numNodes) →
      rt.LoadModel maxLen streamReader s = Run.fault := by
    rcases s with ⟨ws⟩
    intro h hn
    obtain ⟨w0, w1, w2, w3, w4, w5, tl, rfl, htl⟩ := Stream.words_of_length_ge ws h
    have hnum : (Stream.mk (w0 :: w1 :: w2 :: w3 :: w4 :: w5 :: tl)).numNodes = wordToInt w1 := rfl
    rw [hnum] at hn
    exact LoadModel_stream_fault maxLen rt w0 w1 w2 w3 w4 w5 tl htl (by omega)
  refine ⟨?_, ?_, ?_, hfault⟩
  · intro h
    exact ⟨shortRead, rt, ⟨[]⟩, LoadModel_stream_short maxLen rt s h⟩
  · intro h hn hmem
    obtain ⟨err, rt1, s1, hrun, herr⟩ := hfull h hn hmem
    constructor
    · intro hlt
      cases err with
      | none =>
        have := herr.mp rfl
        omega
      | some e => exact ⟨e, rt1, s1, hrun⟩
    · intro hge
      have herr2 : err = none := herr.mpr hge
      rw [herr2] at hrun
      exact ⟨rt1, s1, hrun⟩
  · rintro ⟨rt2, s2, hrun2⟩
    by_cases h : 37 ≤ s.words.length
    swap
    · rw [LoadModel_stream_short maxLen rt s (by omega)] at hrun2
      injection hrun2 with h1
      injection h1 with h2
      injection h2 with h3
      cases h3
    by_cases hn : s.numNodes < 0 ∨ (maxLen : Int) < s.numNodes
    · rw [hfault h hn] at hrun2
      cases hrun2
    have hn0 : 0 ≤ s.numNodes := by omega
    have hmem : s.numNodes ≤ (maxLen : Int) := by omega
    obtain ⟨err, rt1, s1, hrun, herr⟩ := hfull h hn0 hmem
    rw [hrun] at hrun2
    have herr2 : err = none := by
      injection hrun2 with h1
      injection h1 with h2
      injection h2 with h3
    exact ⟨h, hn0, hmem, herr.mp herr2⟩

/-- Witness for C9, amended, on the stream of the sample tree (3 nodes, 64 words:
the header in words 0 to 36, the node records in words 37 to 51, the statistics
records in words 52 to 63) and a machine that grants tables of three pointers: cut
after 51 words, which is just before the float of the third node, after 49 words,
inside the third node record, after 54 words, inside the first statistics record,
and after 20 words, inside the header, the load fails; the whole stream loads. -/
theorem LoadModel_truncated_witness :
    (∃ e rt1 s1, RegTree.empty.LoadModel 3 streamReader
        ⟨(treeStream sampleHeader sampleRecords sampleStats []).words.take 51⟩ =
          Run.done ((some e, rt1), s1)) ∧
    (∃ e rt1 s1, RegTree.empty.LoadModel 3 streamReader
        ⟨(treeStream sampleHeader sampleRecords sampleStats []).words.take 49⟩ =
          Run.done ((some e, rt1), s1)) ∧
    (∃ e rt1 s1, RegTree.empty.LoadModel 3 streamReader
        ⟨(treeStream sampleHeader sampleRecords sampleStats []).words.take 54⟩ =
          Run.done ((some e, rt1), s1)) ∧
    (∃ e rt1 s1, RegTree.empty.LoadModel 3 streamReader
        ⟨(treeStream sampleHeader sampleRecords sampleStats []).words.take 20⟩ =
          Run.done ((some e, rt1), s1)) ∧
    (∃ rt1 s1, RegTree.empty.LoadModel 3 streamReader
        (treeStream sampleHeader sampleRecords sampleStats []) =
          Run.done ((none, rt1), s1)) :=
  ⟨((LoadModel_truncated 3 RegTree.empty
        ⟨(treeStream sampleHeader sampleRecords sampleStats []).words.take 51⟩).2.1
      (by decide) (by decide) (by decide)).1 (by decide),
   ((LoadModel_truncated 3 RegTree.empty
        ⟨(treeStream sampleHeader sampleRecords sampleStats []).words.take 49⟩).2.1
      (by decide) (by decide) (by decide)).1 (by decide),
   ((LoadModel_truncated 3 RegTree.empty
        ⟨(treeStream sampleHeader sampleRecords sampleStats []).words.take 54⟩).2.1
      (by decide) (by decide) (by decide)).1 (by decide),
   (LoadModel_truncated 3 RegTree.empty
        ⟨(treeStream sampleHeader sampleRecords sampleStats []).words.take 20⟩).1 (by decide),
   ((LoadModel_truncated 3 RegTree.empty
        (treeStream sampleHeader sampleRecords sampleStats [])).2.1
      (by decide) (by decide) (by decide)).2 (by decide)⟩

/-- C10: header truncation produces no tree. On every stream of fewer than 37
words `LoadModel` returns a non-nil error, the short-read error, and the
receiver's `param`, `nodes` and `stats` are what they were before the call; no
table is made before the header is decoded, so this holds on every machine. -/
theorem LoadModel_header_truncated (maxLen : Nat) (rt : RegTree) (s : Stream)
    (h : s.words.length < 37) :
    ∃ e rt1 s1, rt.LoadModel maxLen streamReader s = Run.done ((some e, rt1), s1) ∧
      rt1.param = rt.param ∧ rt1.nodes = rt.nodes ∧ rt1.stats = rt.stats := by
  exact ⟨shortRead, rt, ⟨[]⟩, LoadModel_stream_short maxLen rt s h, rfl, rfl, rfl⟩

/-- Witness for C10: the sample tree as receiver and a stream of 36 words, on a
machine that grants no table at all. -/
theorem LoadModel_header_truncated_witness :
    ∃ e rt1 s1, sampleTree.LoadModel 0 streamReader ⟨List.range 36⟩ =
        Run.done ((some e, rt1), s1) ∧
      rt1.param = sampleTree.param ∧ rt1.nodes = sampleTree.nodes ∧
      rt1.stats = sampleTree.stats :=
  LoadModel_header_truncated 0 sampleTree ⟨List.range 36⟩ (by decide)

/-! ## The node decoder against any reader -/

/-- Masking with `2^31 - 1` is the residue modulo `2^31`, for every integer. -/
theorem land_mask31_eq_emod (p : Int) : Int.land p 2147483647 = p % 2147483648 := by
  cases p with
  | ofNat m =>
    show ((m &&& 2147483647 : Nat) : Int) = _
    have h := Nat.and_pow_two_sub_one_eq_mod m 31
    norm_num at h
    rw [h]
    simp only [Int.ofNat_eq_coe]
    omega
  | negSucc m =>
    have hl : Int.land (Int.negSucc m) 2147483647 =
        ((2147483647 - m % 2147483648 : Nat) : Int) := by
      show ((Nat.ldiff 2147483647 m : Nat) : Int) = _
      congr 1
      apply Nat.eq_of_testBit_eq
      intro i
      have h2 : m % 2147483648 < 2 ^ 31 := by
        norm_num
        exact Nat.mod_lt _ (by norm_num)
      have h1 := Nat.testBit_two_pow_sub_succ h2 i
      have e : 2 ^ 31 - (m % 2147483648 + 1) = 2147483647 - m % 2147483648 := by
        norm_num
        omega
      rw [e] at h1
      rw [h1, Nat.testBit_ldiff]
      have h3 := Nat.testBit_two_pow_sub_one 31 i
      norm_num at h3
      rw [h3]
      have h4 := Nat.testBit_mod_two_pow m 31 i
      norm_num at h4
      rw [h4]
      by_cases hi : i < 31 <;> simp [hi]
    rw [hl, Int.negSucc_eq]
    omega

/-- The arithmetic shift by 31 of a 32-bit signed integer is non-zero exactly when
the integer is negative. -/
theorem shiftRight31_ne_zero_iff (p : Int) (h : FitsInt32 p) : p >>> 31 ≠ 0 ↔ p < 0 := by
  unfold FitsInt32 at h
  have h31 : (31 : Int) = ((31 : Nat) : Int) := rfl
  rw [h31]
  cases p with
  | ofNat m =>
    have hm : m < 2147483648 := by
      have := h.2
      simp only [Int.ofNat_eq_coe] at this
      omega
    have hz : m >>> 31 = 0 := by
      rw [Nat.shiftRight_eq_div_pow]
      norm_num
      omega
    simp only [Int.ofNat_eq_coe, Int.shiftRight_coe_nat, hz]
    constructor
    · intro hc; exact absurd rfl hc
    · intro hc; omega
  | negSucc m =>
    rw [Int.shiftRight_negSucc]
    constructor
    · intro _; exact Int.negSucc_lt_zero m
    · intro _ hc; cases hc

/-- Against any reader, once the four integer reads have succeeded `newNode`
returns the node built from the four integers and the float that was read, and
leaves the reader as the float read left it. -/
theorem newNode_of_four_ints {σ : Type} (R : ModelReader σ) (s : σ)
    (hall : ∀ j, j < 4 → (R.ReadInt (R.afterInts j s)).1.2 = none) :
    newNode R s =
      ((NodeRecord.toNode ⟨(R.ReadInt (R.afterInts 0 s)).1.1, (R.ReadInt (R.afterInts 1 s)).1.1,
          (R.ReadInt (R.afterInts 2 s)).1.1, (R.ReadInt (R.afterInts 3 s)).1.1,
          (R.ReadFloat (R.afterInts 4 s)).1.1⟩, none),
        (R.ReadFloat (R.afterInts 4 s)).2) := by
  rcases h0 : R.ReadInt s with ⟨⟨v0, e0⟩, s1⟩
  rcases h1 : R.ReadInt s1 with ⟨⟨v1, e1⟩, s2⟩
  rcases h2 : R.ReadInt s2 with ⟨⟨v2, e2⟩, s3⟩
  rcases h3 : R.ReadInt s3 with ⟨⟨v3, e3⟩, s4⟩
  rcases h4 : R.ReadFloat s4 with ⟨⟨f, e4⟩, s5⟩
  have a0 : R.afterInts 0 s = s := rfl
  have a1 : R.afterInts 1 s = s1 := by simp [ModelReader.afterInts, h0]
  have a2 : R.afterInts 2 s = s2 := by simp [ModelReader.afterInts, h0, h1]
  have a3 : R.afterInts 3 s = s3 := by simp [ModelReader.afterInts, h0, h1, h2]
  have a4 : R.afterInts 4 s = s4 := by simp [ModelReader.afterInts, h0, h1, h2, h3]
  have p0 := hall 0 (by omega)
  have p1 := hall 1 (by omega)
  have p2 := hall 2 (by omega)
  have p3 := hall 3 (by omega)
  rw [a0, h0] at p0
  rw [a1, h1] at p1
  rw [a2, h2] at p2
  rw [a3, h3] at p3
  simp only at p0 p1 p2 p3
  subst p0 p1 p2 p3
  rw [a0, a1, a2, a3, a4, h0, h1, h2, h3, h4]
  unfold newNode
  simp only [h0, h1, h2, h3]
  by_cases hl : v1 = -1
  · simp [Node.new, Node.is_leaf, hl, h4, newNode.finish, NodeRecord.toNode, Node.cdefault,
      Node.default_left, Node.split_index]
  · simp [Node.new, Node.is_leaf, hl, h4, newNode.finish, NodeRecord.toNode, Node.cdefault,
      Node.default_left, Node.split_index]

/-- Whatever the reader does, the node `newNode` returns has a split feature in
`[0, 2^31)`: the masked packed index, or 0 when a read failed before the mask. -/
theorem newNode_splitIndex_range {σ : Type} (R : ModelReader σ) (s : σ) :
    0 ≤ (newNode R s).1.1._splitIndex ∧ (newNode R s).1.1._splitIndex < 2147483648 := by
  unfold newNode
  rcases R.ReadInt s with ⟨⟨v0, _ | e0⟩, s1⟩
  swap
  · simp [Node.new]
  dsimp only
  rcases R.ReadInt s1 with ⟨⟨v1, _ | e1⟩, s2⟩
  swap
  · simp [Node.new]
  dsimp only
  rcases R.ReadInt s2 with ⟨⟨v2, _ | e2⟩, s3⟩
  swap
  · simp [Node.new]
  dsimp only
  rcases R.ReadInt s3 with ⟨⟨v3, _ | e3⟩, s4⟩
  swap
  · simp [Node.new]
  dsimp only
  rcases R.ReadFloat s4 with ⟨⟨f, e4⟩, s5⟩
  by_cases hl : v1 = -1
  · simp only [Node.new, Node.is_leaf, hl, newNode.finish, Node.split_index]
    simp
    omega
  · simp only [Node.new, Node.is_leaf, hl, newNode.finish, Node.split_index]
    simp [hl]
    omega

/-! ## C11: leaf-ness and the dual-purpose float -/

/-- C11: for every node `newNode` produces once its four integer reads have
succeeded, `cleft_` is the second integer read and `_isLeaf` is `cleft_ == -1`; the
float read next is `leaf_value` when the node is a leaf, `split_cond` being the NaN
marker, and it is `split_cond` otherwise, `leaf_value` being the NaN marker. In
both cases exactly one float is read: the reader is left as the one `ReadFloat`
call that follows the four integer reads leaves it, which on a word stream is five
words further. -/
theorem newNode_leaf_and_float {σ : Type} (R : ModelReader σ) (s : σ)
    (hall : ∀ j, j < 4 → (R.ReadInt (R.afterInts j s)).1.2 = none) :
    (newNode R s).1.1.cleft_ = (R.ReadInt (R.afterInts 1 s)).1.1 ∧
    (newNode R s).1.1._isLeaf = decide ((newNode R s).1.1.cleft_ = -1) ∧
    ((newNode R s).1.1._isLeaf = true →
      (newNode R s).1.1.leaf_value = (R.ReadFloat (R.afterInts 4 s)).1.1 ∧
      (newNode R s).1.1.split_cond = F32.NaN) ∧
    ((newNode R s).1.1._isLeaf = false →
      (newNode R s).1.1.split_cond = (R.ReadFloat (R.afterInts 4 s)).1.1 ∧
      (newNode R s).1.1.leaf_value = F32.NaN) ∧
    F32.NaN.isNaN = true ∧
    (newNode R s).2 = (R.ReadFloat (R.afterInts 4 s)).2 ∧
    (∀ p l r x f rest, (newNode streamReader ⟨p :: l :: r :: x :: f :: rest⟩).2 = ⟨rest⟩) := by
  rw [newNode_of_four_ints R s hall]
  refine ⟨rfl, ?_, ?_, ?_, by decide, rfl, ?_⟩
  · simp only [NodeRecord.toNode]
    rfl
  · intro hl
    have hl2 : (R.ReadInt (R.afterInts 1 s)).1.1 = -1 := by
      simpa [NodeRecord.toNode] using hl
    simp [NodeRecord.toNode, hl2]
  · intro hl
    have hl2 : ¬ (R.ReadInt (R.afterInts 1 s)).1.1 = -1 := by
      simpa [NodeRecord.toNode] using hl
    simp [NodeRecord.toNode, hl2]
  · intro p l r x f rest
    rw [newNode_stream]

/-- Witness for C11: the leaf record of `leafWords` and the split record of
`splitWords`, each followed by a word that stays unread. -/
theorem newNode_leaf_and_float_witness :
    ((newNode streamReader leafWords).1.1._isLeaf = true ∧
      (newNode streamReader leafWords).1.1.leaf_value = F32.one ∧
      (newNode streamReader leafWords).1.1.split_cond = F32.NaN ∧
      (newNode streamReader leafWords).2 = ⟨[9]⟩) ∧
    ((newNode streamReader splitWords).1.1._isLeaf = false ∧
      (newNode streamReader splitWords).1.1.split_cond = F32.three ∧
      (newNode streamReader splitWords).1.1.leaf_value = F32.NaN ∧
      (newNode streamReader splitWords).2 = ⟨[9]⟩) :=
  ⟨⟨by decide,
    ((newNode_leaf_and_float streamReader leafWords (by decide)).2.2.1 (by decide)).1,
    ((newNode_leaf_and_float streamReader leafWords (by decide)).2.2.1 (by decide)).2,
    (newNode_leaf_and_float streamReader leafWords (by decide)).2.2.2.2.2.1⟩,
   ⟨by decide,
    ((newNode_leaf_and_float streamReader splitWords (by decide)).2.2.2.1 (by decide)).1,
    ((newNode_leaf_and_float streamReader splitWords (by decide)).2.2.2.1 (by decide)).2,
    (newNode_leaf_and_float streamReader splitWords (by decide)).2.2.2.2.2.1⟩⟩

/-! ## C12: split-feature unpacking -/

/-- C12: for every node `newNode` produces once its four integer reads have
succeeded, `p` being the packed index read, `_splitIndex` is `p & 0x7FFFFFFF`; for
`p` in the signed 32-bit range this is `p` itself when `p >= 0` and `p + 2^31` when
`p < 0`. -/
theorem newNode_split_index {σ : Type} (R : ModelReader σ) (s : σ)
    (hall : ∀ j, j < 4 → (R.ReadInt (R.afterInts j s)).1.2 = none) :
    (newNode R s).1.1.sindex_ = (R.ReadInt (R.afterInts 3 s)).1.1 ∧
    (newNode R s).1.1._splitIndex = Int.land (R.ReadInt (R.afterInts 3 s)).1.1 2147483647 ∧
    (FitsInt32 (R.ReadInt (R.afterInts 3 s)).1.1 →
      (0 ≤ (R.ReadInt (R.afterInts 3 s)).1.1 →
        (newNode R s).1.1._splitIndex = (R.ReadInt (R.afterInts 3 s)).1.1) ∧
      ((R.ReadInt (R.afterInts 3 s)).1.1 < 0 →
        (newNode R s).1.1._splitIndex = (R.ReadInt (R.afterInts 3 s)).1.1 + 2147483648)) := by
  rw [newNode_of_four_ints R s hall]
  refine ⟨rfl, ?_, ?_⟩
  · rw [land_mask31_eq_emod]
    rfl
  · intro hfit
    unfold FitsInt32 at hfit
    simp only [NodeRecord.toNode]
    constructor <;> intro h <;> omega

/-- Witness for C12: the packed index `0x80000003`, read as `-2147483645`, gives
the split feature 3, and so does the packed index 3. -/
theorem newNode_split_index_witness :
    (newNode streamReader splitWords).1.1.sindex_ = -2147483645 ∧
    (newNode streamReader splitWords).1.1._splitIndex = -2147483645 + 2147483648 ∧
    (newNode streamReader splitWordsRight).1.1.sindex_ = 3 ∧
    (newNode streamReader splitWordsRight).1.1._splitIndex = 3 :=
  ⟨(newNode_split_index streamReader splitWords (by decide)).1,
   ((newNode_split_index streamReader splitWords (by decide)).2.2 (by decide)).2 (by decide),
   (newNode_split_index streamReader splitWordsRight (by decide)).1,
   ((newNode_split_index streamReader splitWordsRight (by decide)).2.2 (by decide)).1
     (by decide)⟩

/-! ## C13: default-branch unpacking -/

/-- C13, as stated, fails on a leaf record: the node decoded from `leafWords` has
`cleft_ = cright_ = -1` and the packed index 0, which is not negative, so its
`_defaultNext` is `cright_` and yet equals `cleft_`. -/
theorem newNode_default_equals_left_without_sign :
    (newNode streamReader leafWords).1.2 = none ∧
    (newNode streamReader leafWords).1.1.sindex_ = 0 ∧
    (newNode streamReader leafWords).1.1._defaultNext =
      (newNode streamReader leafWords).1.1.cleft_ ∧
    ¬ ((newNode streamReader leafWords).1.1._defaultNext =
        (newNode streamReader leafWords).1.1.cleft_ ↔
       (newNode streamReader leafWords).1.1.sindex_ < 0) := by
  decide

/-- C13, amended: for every node `newNode` produces once its four integer reads
have succeeded, the packed index `p` being in the signed 32-bit range,
`_defaultNext` is `cleft_` when `p` is negative and `cright_` otherwise; hence,
when the two children differ, `_defaultNext == cleft_` if and only if `p` is
negative. -/
theorem newNode_default_next {σ : Type} (R : ModelReader σ) (s : σ)
    (hall : ∀ j, j < 4 → (R.ReadInt (R.afterInts j s)).1.2 = none)
    (hfit : FitsInt32 (R.ReadInt (R.afterInts 3 s)).1.1) :
    ((R.ReadInt (R.afterInts 3 s)).1.1 < 0 →
      (newNode R s).1.1._defaultNext = (newNode R s).1.1.cleft_) ∧
    (¬ (R.ReadInt (R.afterInts 3 s)).1.1 < 0 →
      (newNode R s).1.1._defaultNext = (newNode R s).1.1.cright_) ∧
    ((newNode R s).1.1.cleft_ ≠ (newNode R s).1.1.cright_ →
      ((newNode R s).1.1._defaultNext = (newNode R s).1.1.cleft_ ↔
        (R.ReadInt (R.afterInts 3 s)).1.1 < 0)) := by
  rw [newNode_of_four_ints R s hall]
  have hs := shiftRight31_ne_zero_iff _ hfit
  by_cases hneg : (R.ReadInt (R.afterInts 3 s)).1.1 < 0
  · have hsh : (R.ReadInt (R.afterInts 3 s)).1.1 >>> 31 ≠ 0 := hs.mpr hneg
    simp [NodeRecord.toNode, hneg, hsh]
  · have hsh : (R.ReadInt (R.afterInts 3 s)).1.1 >>> 31 = 0 := by
      by_contra hc
      exact hneg (hs.mp hc)
    simp only [NodeRecord.toNode, hneg, hsh]
    refine ⟨fun h => absurd h (by simp), fun _ => by simp, fun hne => ?_⟩
    simp only [iff_false]
    intro hc
    apply hne
    simpa using hc.symm

/-- Witness for C13, amended: the packed index `0x80000003` (negative) selects the
left child 1, the packed index 3 the right child 2. -/
theorem newNode_default_next_witness :
    (newNode streamReader splitWords).1.1._defaultNext = 1 ∧
    (newNode streamReader splitWordsRight).1.1._defaultNext = 2 ∧
    ((newNode streamReader splitWords).1.1._defaultNext =
        (newNode streamReader splitWords).1.1.cleft_ ↔
      (streamReader.ReadInt (streamReader.afterInts 3 splitWords)).1.1 < 0) :=
  ⟨(newNode_default_next streamReader splitWords (by decide) (by decide)).1 (by decide),
   (newNode_default_next streamReader splitWordsRight (by decide) (by decide)).2.1 (by decide),
   (newNode_default_next streamReader splitWords (by decide) (by decide)).2.2 (by decide)⟩

/-! ## C18: dense indexing is in bounds for decoded nodes -/

/-- C18: for every node `newNode` returns, whatever the reader delivers as packed
index, `0 <= _splitIndex < 2^31`; therefore, for every dense vector and flag,
`nextFromArray` reads `values[_splitIndex]` only when `0 <= _splitIndex <
len(values)`, the element is there, and the lookup never faults. -/
theorem newNode_dense_index_in_bounds {σ : Type} (R : ModelReader σ) (s : σ)
    (values : List F32) (z : Bool) :
    0 ≤ (newNode R s).1.1._splitIndex ∧
    (newNode R s).1.1._splitIndex < 2147483648 ∧
    (¬ ((values.length : Int) ≤ (newNode R s).1.1._splitIndex) →
      (0 ≤ (newNode R s).1.1._splitIndex ∧
        (newNode R s).1.1._splitIndex < (values.length : Int)) ∧
      ∃ v, goIndex values (newNode R s).1.1._splitIndex = some v) ∧
    (newNode R s).1.1.nextFromArray values z ≠ none := by
  have hr := newNode_splitIndex_range R s
  refine ⟨hr.1, hr.2, ?_, ?_⟩
  · intro hlen
    refine ⟨⟨hr.1, by omega⟩, ?_⟩
    cases hg : goIndex values (newNode R s).1.1._splitIndex with
    | none =>
      have := (goIndex_eq_none_iff values _).mp hg
      omega
    | some v => exact ⟨v, rfl⟩
  · intro hc
    have := (Node.nextFromArray_eq_none_iff _ values z).mp hc
    omega

/-- Witness for C18: the node decoded from `rootWords` (packed index `0x80000000`,
a negative integer) tests feature 0 and reads `values[0]` of the vector `[5.0]`. -/
theorem newNode_dense_index_in_bounds_witness :
    (streamReader.ReadInt (streamReader.afterInts 3 rootWords)).1.1 = -2147483648 ∧
    ((0 ≤ (newNode streamReader rootWords).1.1._splitIndex ∧
        (newNode streamReader rootWords).1.1._splitIndex < (([F32.five] : List F32).length : Int)) ∧
      ∃ v, goIndex [F32.five] (newNode streamReader rootWords).1.1._splitIndex = some v) ∧
    (newNode streamReader rootWords).1.1.nextFromArray [F32.five] false ≠ none :=
  ⟨by decide,
   (newNode_dense_index_in_bounds streamReader rootWords [F32.five] false).2.2.1 (by decide),
   (newNode_dense_index_in_bounds streamReader rootWords [F32.five] false).2.2.2⟩

/-! ## C17: dense and sparse traversal agree -/

theorem goIndex_mem {α : Type} (xs : List α) (i : Int) (a : α) (h : goIndex xs i = some a) :
    a ∈ xs := by
  have h2 := ((goIndex_eq_some_iff xs i a).mp h).2
  exact List.getElem?_mem h2

/-- On a vector without NaN, a node with a non-negative split feature takes the
same step on the vector and on the map that holds the vector's entries. -/
theorem Node.nextFromArray_eq_nextFromMap (n : Node) (values : List F32)
    (hnan : ∀ v ∈ values, v.isNaN = false) (hsplit : 0 ≤ n._splitIndex) :
    n.nextFromArray values false = some (n.nextFromMap (denseAsMap values)) := by
  unfold Node.nextFromArray Node.nextFromMap denseAsMap
  by_cases hlen : (values.length : Int) ≤ n._splitIndex
  · have hg : goIndex values n._splitIndex = none :=
      (goIndex_eq_none_iff values _).mpr (Or.inr hlen)
    simp [hlen, hg]
  · cases hg : goIndex values n._splitIndex with
    | none =>
      have := (goIndex_eq_none_iff values _).mp hg
      omega
    | some v =>
      have hv : v.isNaN = false := hnan v (goIndex_mem values _ v hg)
      have hne : v.ne v = false := by rw [F32.ne_self_eq_isNaN]; exact hv
      simp only [hlen, if_false, Bool.false_and, hne]
      by_cases hlt : v.lt n.split_cond = true <;> simp [hlt]

/-- The dense and the sparse index loops agree at every fuel. -/
theorem RegTree.arrayIndexLoop_eq_mapIndexLoop (rt : RegTree) (hnn : rt.SplitsNonneg)
    (values : List F32) (hnan : ∀ v ∈ values, v.isNaN = false) :
    ∀ (fuel : Nat) (pid : Int) (n : Node), rt.nodeAt pid = some n →
      RegTree.GetLeafIndexByArray.loop rt values false fuel pid n =
        RegTree.GetLeafIndexByMap.loop rt (denseAsMap values) fuel pid n := by
  intro fuel
  induction fuel with
  | zero =>
    intro pid n _
    simp [RegTree.GetLeafIndexByArray.loop, RegTree.GetLeafIndexByMap.loop]
  | succ k ih =>
    intro pid n hn
    cases hl : n._isLeaf with
    | true => simp [RegTree.GetLeafIndexByArray.loop, RegTree.GetLeafIndexByMap.loop, hl]
    | false =>
      have hstep := Node.nextFromArray_eq_nextFromMap n values hnan (hnn pid n hn hl)
      cases hm : rt.nodeAt (n.nextFromMap (denseAsMap values)) with
      | none =>
        simp [RegTree.GetLeafIndexByArray.loop, RegTree.GetLeafIndexByMap.loop, hl, hstep, hm]
      | some m =>
        simp [RegTree.GetLeafIndexByArray.loop, RegTree.GetLeafIndexByMap.loop, hl, hstep, hm,
          ih _ m hm]

/-- C17: in a tree satisfying the topology invariant whose non-leaf nodes have
`_splitIndex >= 0`, for every dense vector without NaN and the map that has exactly
the keys `0 .. len(values) - 1` with the same entries, `GetLeafIndexByArray(values,
false, r)` and `GetLeafIndexByMap(m, r)` have the same outcome at every fuel, and
from an in-range root both return the same leaf index. A vector too short for a
node's split feature takes the default branch, as does the map, which lacks that
key. -/
theorem dense_and_sparse_agree (rt : RegTree) (htop : rt.Topology) (hnn : rt.SplitsNonneg)
    (values : List F32) (hnan : ∀ v ∈ values, v.isNaN = false) (r : Int) :
    (∀ fuel, rt.GetLeafIndexByArray fuel values false r =
        rt.GetLeafIndexByMap fuel (denseAsMap values) r) ∧
    ((rt.nodeAt r).isSome → ∃ F i leaf, rt.nodeAt i = some leaf ∧ leaf._isLeaf = true ∧
      ∀ fuel, F ≤ fuel →
        rt.GetLeafIndexByArray fuel values false r = Run.done i ∧
        rt.GetLeafIndexByMap fuel (denseAsMap values) r = Run.done i) ∧
    (∀ n : Node, 0 ≤ n._splitIndex → (values.length : Int) ≤ n._splitIndex →
      denseAsMap values n._splitIndex = none ∧
      n.nextFromArray values false = some n._defaultNext ∧
      n.nextFromMap (denseAsMap values) = n._defaultNext) := by
  have heq : ∀ fuel, rt.GetLeafIndexByArray fuel values false r =
      rt.GetLeafIndexByMap fuel (denseAsMap values) r := by
    intro fuel
    unfold RegTree.GetLeafIndexByArray RegTree.GetLeafIndexByMap
    cases hr : rt.nodeAt r with
    | none => rfl
    | some n => exact RegTree.arrayIndexLoop_eq_mapIndexLoop rt hnn values hnan fuel r n hr
  refine ⟨heq, ?_, ?_⟩
  · intro hr
    obtain ⟨n, hn⟩ := Option.isSome_iff_exists.mp hr
    obtain ⟨F, i, leaf, hleaf, hl, hF⟩ := htop.mapWalk_settles (denseAsMap values) r n hn
    refine ⟨F, i, leaf, hleaf, hl, fun fuel hf => ?_⟩
    have hmap : rt.GetLeafIndexByMap fuel (denseAsMap values) r = Run.done i := by
      simp [RegTree.GetLeafIndexByMap, hn, hF fuel hf]
    exact ⟨by rw [heq, hmap], hmap⟩
  · intro n h0 hlen
    have hg : denseAsMap values n._splitIndex = none :=
      (goIndex_eq_none_iff values _).mpr (Or.inr hlen)
    refine ⟨hg, by simp [Node.nextFromArray, hlen], by simp [Node.nextFromMap, hg]⟩

/-- Witness for C17 on the sample tree: the vector `[3.0]` and the empty vector,
which is too short for the root's feature 0. -/
theorem dense_and_sparse_agree_witness :
    (∀ fuel, sampleTree.GetLeafIndexByArray fuel [F32.three] false 0 =
        sampleTree.GetLeafIndexByMap fuel (denseAsMap [F32.three]) 0) ∧
    (∃ F i leaf, sampleTree.nodeAt i = some leaf ∧ leaf._isLeaf = true ∧
      ∀ fuel, F ≤ fuel →
        sampleTree.GetLeafIndexByArray fuel [] false 0 = Run.done i ∧
        sampleTree.GetLeafIndexByMap fuel (denseAsMap []) 0 = Run.done i) ∧
    (denseAsMap [] sampleRoot._splitIndex = none ∧
      sampleRoot.nextFromArray [] false = some sampleRoot._defaultNext ∧
      sampleRoot.nextFromMap (denseAsMap []) = sampleRoot._defaultNext) :=
  ⟨(dense_and_sparse_agree sampleTree sampleTree_topology sampleTree_splitsNonneg [F32.three]
      (by decide) 0).1,
   (dense_and_sparse_agree sampleTree sampleTree_topology sampleTree_splitsNonneg []
      (by decide) 0).2.1 (by decide),
   (dense_and_sparse_agree sampleTree sampleTree_topology sampleTree_splitsNonneg []
      (by decide) 0).2.2 sampleRoot (by decide) (by decide)⟩

/-! ## C16: zero-as-missing follows the default subtree -/

/-- C16: in a tree satisfying the topology invariant, for an in-range non-leaf root
`r` whose default successor is its left child and a dense vector whose entry at
the root's split feature equals `0.0`, the dense walk with zero counting as missing
steps from `r` to `cleft_` whatever `split_cond` is, so that
`GetLeafIndexByArray(values, true, r)` is `GetLeafIndexByArray(values, true,
nodes[r].cleft_)`: the walk from `r` with one more iteration has the outcome of the
walk from the left child, both settle on the same outcome, and when no non-leaf
node has a negative split feature that outcome is the same leaf index. -/
theorem zero_as_missing_follows_default (rt : RegTree) (htop : rt.Topology) (r : Int)
    (n : Node) (hr : rt.nodeAt r = some n) (hnl : n._isLeaf = false)
    (hdef : n._defaultNext = n.cleft_) (values : List F32) (v : F32)
    (hv : goIndex values n._splitIndex = some v) (h0 : v.eq F32.zero = true) :
    n.nextFromArray values true = some n.cleft_ ∧
    (∀ fuel, rt.GetLeafIndexByArray (fuel + 1) values true r =
        rt.GetLeafIndexByArray fuel values true n.cleft_) ∧
    (∃ F res, res ≠ Run.outOfFuel ∧ ∀ fuel, F ≤ fuel →
        rt.GetLeafIndexByArray fuel values true r = res ∧
        rt.GetLeafIndexByArray fuel values true n.cleft_ = res) ∧
    (rt.SplitsNonneg → ∃ F i leaf, rt.nodeAt i = some leaf ∧ leaf._isLeaf = true ∧
      ∀ fuel, F ≤ fuel →
        rt.GetLeafIndexByArray fuel values true r = Run.done i ∧
        rt.GetLeafIndexByArray fuel values true n.cleft_ = Run.done i) := by
  have hidx := (goIndex_eq_some_iff values n._splitIndex v).mp hv
  have hlt : n._splitIndex.toNat < values.length := by
    have h2 := hidx.2
    rw [List.getElem?_eq_some_iff] at h2
    exact h2.1
  have hlen : ¬ (values.length : Int) ≤ n._splitIndex := by omega
  have hnext : n.nextFromArray values true = some n.cleft_ := by
    simp [Node.nextFromArray, hlen, hv, h0, hdef]
  have hstep : ∀ fuel, rt.GetLeafIndexByArray (fuel + 1) values true r =
      rt.GetLeafIndexByArray fuel values true n.cleft_ := by
    intro fuel
    simp only [RegTree.GetLeafIndexByArray, hr, RegTree.GetLeafIndexByArray.loop, hnl, hnext]
    rfl
  obtain ⟨m, hm⟩ := Option.isSome_iff_exists.mp (htop.children_valid r n hr hnl).1
  obtain ⟨F, res, hF, hcase⟩ := htop.arrayWalk_settles values true n.cleft_ m hm
  have hleft : ∀ fuel, F ≤ fuel → rt.GetLeafIndexByArray fuel values true n.cleft_ = res := by
    intro fuel hf
    simp [RegTree.GetLeafIndexByArray, hm, hF fuel hf]
  have hroot : ∀ fuel, F + 1 ≤ fuel → rt.GetLeafIndexByArray fuel values true r = res := by
    intro fuel hf
    obtain ⟨k, rfl⟩ : ∃ k, fuel = k + 1 := ⟨fuel - 1, by omega⟩
    rw [hstep k]
    exact hleft k (by omega)
  refine ⟨hnext, hstep, ⟨F + 1, res, ?_, fun fuel hf => ⟨hroot fuel hf, hleft fuel (by omega)⟩⟩, ?_⟩
  · rcases hcase with ⟨i, leaf, rfl, _, _⟩ | ⟨rfl, _⟩
    · intro hc; cases hc
    · intro hc; cases hc
  · intro hnn
    rcases hcase with ⟨i, leaf, rfl, hleaf, hl⟩ | ⟨_, i, b, hb, hbl, hneg⟩
    · exact ⟨F + 1, i, leaf, hleaf, hl, fun fuel hf => ⟨hroot fuel hf, hleft fuel (by omega)⟩⟩
    · have := hnn i b hb hbl
      omega

/-- Witness for C16: the sample tree, whose root splits on feature 0 with default
left, and the input `[0.0]`; the walk from the root ends at the left leaf 1, where
the walk from the left child ends. -/
theorem zero_as_missing_follows_default_witness :
    sampleRoot.nextFromArray [F32.zero] true = some sampleRoot.cleft_ ∧
    sampleTree.GetLeafIndexByArray 1 [F32.zero] true 0 =
      sampleTree.GetLeafIndexByArray 0 [F32.zero] true sampleRoot.cleft_ ∧
    sampleTree.GetLeafIndexByArray 0 [F32.zero] true sampleRoot.cleft_ = Run.done 1 :=
  ⟨(zero_as_missing_follows_default sampleTree sampleTree_topology 0 sampleRoot (by decide)
      rfl rfl [F32.zero] F32.zero (by decide) (by decide)).1,
   (zero_as_missing_follows_default sampleTree sampleTree_topology 0 sampleRoot (by decide)
      rfl rfl [F32.zero] F32.zero (by decide) (by decide)).2.1 0,
   by decide⟩

/-! ## Loaded trees -/

/-- Every node the node loop stores has a split feature that is not negative. -/
theorem loadNodes_splitIndex_nonneg {σ : Type} (R : ModelReader σ) :
    ∀ (k i : Nat) (nodes : List (Option Node)) (s : σ),
      (∀ nd, some nd ∈ nodes → 0 ≤ nd._splitIndex) →
      ∀ nd, some nd ∈ (RegTree.loadNodes R k i nodes s).1.1 → 0 ≤ nd._splitIndex := by
  intro k
  induction k with
  | zero =>
    intro i nodes s h nd hnd
    exact h nd (by simpa [RegTree.loadNodes] using hnd)
  | succ k ih =>
    intro i nodes s h nd hnd
    have hr := newNode_splitIndex_range R s
    rcases hres : newNode R s with ⟨⟨nd0, err⟩, s2⟩
    rw [hres] at hr
    have hset : ∀ x, some x ∈ nodes.set i (some nd0) → 0 ≤ x._splitIndex := by
      intro x hx
      rcases List.mem_or_eq_of_mem_set hx with hx | hx
      · exact h x hx
      · cases hx
        exact hr.1
    cases err with
    | some e =>
      simp only [RegTree.loadNodes, hres] at hnd
      exact hset nd hnd
    | none =>
      simp only [RegTree.loadNodes, hres] at hnd
      exact ih (i + 1) _ s2 hset nd hnd

/-- Every node of a tree that `LoadModel` has loaded without error tests a
feature id that is not negative: `_splitIndex` is written by `newNode` only, from
the masked packed index. -/
theorem LoadModel_splitsNonneg {σ : Type} (maxLen : Nat) (R : ModelReader σ)
    (rt0 rt : RegTree) (s s1 : σ)
    (hload : rt0.LoadModel maxLen R s = Run.done ((none, rt), s1)) : rt.SplitsNonneg := by
  have hnodes : ∀ nd, some nd ∈ rt.nodes → 0 ≤ nd._splitIndex := by
    unfold RegTree.LoadModel at hload
    rcases hP : newParam R s with ⟨⟨p, _ | e⟩, sP⟩
    swap
    · simp [hP] at hload
    simp only [hP] at hload
    cases hmN : (makeSlice maxLen p.num_nodes : Option (List (Option Node))) with
    | none => simp [hmN] at hload
    | some nodes0 =>
      simp only [hmN] at hload
      have hN := loadNodes_splitIndex_nonneg R p.num_nodes.toNat 0 nodes0 sP (by
        intro nd hnd
        rw [(makeSlice_eq_some maxLen _ _ hmN).2.2] at hnd
        have := List.eq_of_mem_replicate hnd
        cases this)
      rcases hresN : RegTree.loadNodes R p.num_nodes.toNat 0 nodes0 sP with
        ⟨⟨nodes, _ | e⟩, sN⟩
      swap
      · simp [hresN] at hload
      rw [hresN] at hN
      simp only [hresN] at hload
      cases hmS : (makeSlice maxLen p.num_nodes : Option (List (Option RTreeNodeStat))) with
      | none => simp [hmS] at hload
      | some stats0 =>
        simp only [hmS] at hload
        rcases hresS : RegTree.loadStats R p.num_nodes.toNat 0 stats0 sN with
          ⟨⟨stats, errS⟩, sS⟩
        simp only [hresS] at hload
        injection hload with h1
        injection h1 with h2 _
        injection h2 with _ h3
        subst h3
        exact hN
  intro i n hn _
  unfold RegTree.nodeAt at hn
  cases hg : goIndex rt.nodes i with
  | none => simp [hg] at hn
  | some o =>
    rw [hg] at hn
    simp only [Option.join] at hn
    subst hn
    exact hnodes n (goIndex_mem rt.nodes i _ hg)

/-- The stream of the sample header, node records and statistics loads, on a
machine that grants tables of three pointers, into `loadedSampleTree`. -/
theorem loadedSampleTree_loaded :
    RegTree.empty.LoadModel 3 streamReader
        (treeStream sampleHeader sampleRecords sampleStats []) =
      Run.done ((none, loadedSampleTree), ⟨[]⟩) := by
  decide

theorem loadedSampleTree_topology : loadedSampleTree.Topology :=
  RegTree.Topology.of_three_nodes loadedSampleTree sampleRoot (sampleLeaf F32.one)
    (sampleLeaf F32.two) rfl rfl rfl (Or.inl rfl) rfl (Or.inl rfl) rfl (Or.inl rfl)

/-- In a tree satisfying the topology invariant none of whose non-leaf nodes has a
negative split feature, the dense index walk from a valid root returns a leaf
index. -/
theorem RegTree.Topology.arrayWalk_reaches_leaf {rt : RegTree} (htop : rt.Topology)
    (hnn : rt.SplitsNonneg) (values : List F32) (z : Bool) (pid : Int) (n : Node)
    (hpid : rt.nodeAt pid = some n) :
    ∃ F i leaf, rt.nodeAt i = some leaf ∧ leaf._isLeaf = true ∧
      ∀ fuel, F ≤ fuel → RegTree.GetLeafIndexByArray.loop rt values z fuel pid n = Run.done i := by
  obtain ⟨F, res, hF, hcase⟩ := htop.arrayWalk_settles values z pid n hpid
  rcases hcase with ⟨i, leaf, rfl, hleaf, hl⟩ | ⟨_, i, b, hb, hbl, hneg⟩
  · exact ⟨F, i, leaf, hleaf, hl, hF⟩
  · have := hnn i b hb hbl
    omega

/-! ## C5: the walk stops exactly at a leaf -/

/-- C5: in a tree satisfying the topology invariant and from an in-range root, the
index `GetLeafIndexByMap` returns, for every map, is an in-range index of a node
whose `_isLeaf` is true, and so is the index `GetLeafIndexByArray` returns, for
every vector and flag, in every tree that `LoadModel` has loaded, on any reader and
machine; both calls do return. When the root node is itself a leaf both walks
return the root at every fuel, zero included, so no step is taken. -/
theorem walk_stops_at_leaf (rt : RegTree) (htop : rt.Topology) (root_id : Int) (n : Node)
    (hroot : rt.nodeAt root_id = some n) :
    (∀ m : GoMap, ∃ F i leaf, (0 ≤ i ∧ i < (rt.nodes.length : Int)) ∧
        rt.nodeAt i = some leaf ∧ leaf._isLeaf = true ∧
        ∀ fuel, F ≤ fuel → rt.GetLeafIndexByMap fuel m root_id = Run.done i) ∧
    (∀ (σ : Type) (maxLen : Nat) (R : ModelReader σ) (rt0 : RegTree) (s s1 : σ),
      rt0.LoadModel maxLen R s = Run.done ((none, rt), s1) →
      ∀ (values : List F32) (z : Bool),
        ∃ F i leaf, (0 ≤ i ∧ i < (rt.nodes.length : Int)) ∧
          rt.nodeAt i = some leaf ∧ leaf._isLeaf = true ∧
          ∀ fuel, F ≤ fuel → rt.GetLeafIndexByArray fuel values z root_id = Run.done i) ∧
    (n._isLeaf = true → ∀ fuel,
        (∀ m : GoMap, rt.GetLeafIndexByMap fuel m root_id = Run.done root_id) ∧
        (∀ (values : List F32) (z : Bool),
          rt.GetLeafIndexByArray fuel values z root_id = Run.done root_id)) := by
  have hrange : ∀ i leaf, rt.nodeAt i = some leaf → 0 ≤ i ∧ i < (rt.nodes.length : Int) := by
    intro i leaf hi
    have := RegTree.nodeAt_bounds hi
    omega
  refine ⟨?_, ?_, ?_⟩
  · intro m
    obtain ⟨F, i, leaf, hleaf, hl, hF⟩ := htop.mapWalk_settles m root_id n hroot
    exact ⟨F, i, leaf, hrange i leaf hleaf, hleaf, hl, fun fuel hf => by
      simp [RegTree.GetLeafIndexByMap, hroot, hF fuel hf]⟩
  · intro σ maxLen R rt0 s s1 hload values z
    have hnn := LoadModel_splitsNonneg maxLen R rt0 rt s s1 hload
    obtain ⟨F, i, leaf, hleaf, hl, hF⟩ :=
      htop.arrayWalk_reaches_leaf hnn values z root_id n hroot
    exact ⟨F, i, leaf, hrange i leaf hleaf, hleaf, hl, fun fuel hf => by
      simp [RegTree.GetLeafIndexByArray, hroot, hF fuel hf]⟩
  · intro hl fuel
    refine ⟨fun m => ?_, fun values z => ?_⟩
    · simp [RegTree.GetLeafIndexByMap, hroot, RegTree.mapIndexLoop_leaf, hl]
    · simp [RegTree.GetLeafIndexByArray, hroot, RegTree.arrayIndexLoop_leaf, hl]

/-- Witness for C5: the tree loaded from the sample stream, from its root 0 (sparse
and dense walks) and from the leaf 1, where no step is taken. -/
theorem walk_stops_at_leaf_witness :
    (∃ F i leaf, (0 ≤ i ∧ i < (loadedSampleTree.nodes.length : Int)) ∧
        loadedSampleTree.nodeAt i = some leaf ∧ leaf._isLeaf = true ∧
        ∀ fuel, F ≤ fuel →
          loadedSampleTree.GetLeafIndexByMap fuel (sparseAt0 F32.three) 0 = Run.done i) ∧
    (∃ F i leaf, (0 ≤ i ∧ i < (loadedSampleTree.nodes.length : Int)) ∧
        loadedSampleTree.nodeAt i = some leaf ∧ leaf._isLeaf = true ∧
        ∀ fuel, F ≤ fuel →
          loadedSampleTree.GetLeafIndexByArray fuel [F32.three] false 0 = Run.done i) ∧
    loadedSampleTree.GetLeafIndexByArray 0 [F32.three] false 1 = Run.done 1 ∧
    loadedSampleTree.GetLeafIndexByMap 0 sparseEmpty 1 = Run.done 1 :=
  ⟨(walk_stops_at_leaf loadedSampleTree loadedSampleTree_topology 0 sampleRoot
      (by decide)).1 (sparseAt0 F32.three),
   (walk_stops_at_leaf loadedSampleTree loadedSampleTree_topology 0 sampleRoot
      (by decide)).2.1 Stream 3 streamReader RegTree.empty
      (treeStream sampleHeader sampleRecords sampleStats []) ⟨[]⟩ loadedSampleTree_loaded
      [F32.three] false,
   ((walk_stops_at_leaf loadedSampleTree loadedSampleTree_topology 1 (sampleLeaf F32.one)
      (by decide)).2.2 rfl 0).2 [F32.three] false,
   ((walk_stops_at_leaf loadedSampleTree loadedSampleTree_topology 1 (sampleLeaf F32.one)
      (by decide)).2.2 rfl 0).1 sparseEmpty⟩

/-! ## C14: termination and in-range access -/

/-- C14: in a tree in which each non-leaf node's `cleft_` and `cright_` are valid
indices into `nodes`, each node's `_defaultNext` is one of its two children and no
node is reachable from itself by child links, started at an in-range root, the two
sparse entry points return for every map, the absent key included, and in every
tree that `LoadModel` has loaded the two dense entry points return for every
vector and flag, the short vector included (`GetLeafByArray` starting at node 0).
Returning means that every read of `nodes` along the walk was in range and no
lookup faulted; the index returned is in range. -/
theorem traversal_terminates (rt : RegTree) (htop : rt.Topology) (root_id : Int)
    (hroot : (rt.nodeAt root_id).isSome = true) :
    (∀ m : GoMap, ∃ F i leaf, (0 ≤ i ∧ i < (rt.nodes.length : Int)) ∧
      rt.nodeAt i = some leaf ∧ ∀ fuel, F ≤ fuel →
        rt.GetLeafIndexByMap fuel m root_id = Run.done i ∧
        rt.GetLeafByMap fuel m root_id = Run.done leaf.leaf_value) ∧
    (∀ (σ : Type) (maxLen : Nat) (R : ModelReader σ) (rt0 : RegTree) (s s1 : σ),
      rt0.LoadModel maxLen R s = Run.done ((none, rt), s1) →
      ∀ (values : List F32) (z : Bool),
        ∃ F i leaf, (0 ≤ i ∧ i < (rt.nodes.length : Int)) ∧
          rt.nodeAt i = some leaf ∧ ∀ fuel, F ≤ fuel →
            rt.GetLeafIndexByArray fuel values z root_id = Run.done i ∧
            (root_id = 0 → rt.GetLeafByArray fuel values z = Run.done leaf.leaf_value)) := by
  obtain ⟨n, hn⟩ := Option.isSome_iff_exists.mp hroot
  have hrange : ∀ i leaf, rt.nodeAt i = some leaf → 0 ≤ i ∧ i < (rt.nodes.length : Int) := by
    intro i leaf hi
    have := RegTree.nodeAt_bounds hi
    omega
  refine ⟨?_, ?_⟩
  · intro m
    obtain ⟨F, i, leaf, hleaf, _, hF⟩ := htop.mapWalk_settles m root_id n hn
    refine ⟨F, i, leaf, hrange i leaf hleaf, hleaf, fun fuel hf => ?_⟩
    refine ⟨by simp [RegTree.GetLeafIndexByMap, hn, hF fuel hf], ?_⟩
    simp [RegTree.GetLeafByMap, hn, RegTree.mapValueLoop_eq rt m fuel root_id n hn, hF fuel hf,
      Run.bind, RegTree.leafValueAt, hleaf]
  · intro σ maxLen R rt0 s s1 hload values z
    have hnn := LoadModel_splitsNonneg maxLen R rt0 rt s s1 hload
    obtain ⟨F, i, leaf, hleaf, _, hF⟩ := htop.arrayWalk_reaches_leaf hnn values z root_id n hn
    refine ⟨F, i, leaf, hrange i leaf hleaf, hleaf, fun fuel hf => ?_⟩
    refine ⟨by simp [RegTree.GetLeafIndexByArray, hn, hF fuel hf], ?_⟩
    intro h0
    subst h0
    simp [RegTree.GetLeafByArray, hn, RegTree.arrayValueLoop_eq rt values z fuel 0 n hn,
      hF fuel hf, Run.bind, RegTree.leafValueAt, hleaf]

/-- Witness for C14: the tree loaded from the sample stream, from its root 0, on
the empty map and on the empty vector, which is too short for the root's feature. -/
theorem traversal_terminates_witness :
    (∃ F i leaf, (0 ≤ i ∧ i < (loadedSampleTree.nodes.length : Int)) ∧
      loadedSampleTree.nodeAt i = some leaf ∧ ∀ fuel, F ≤ fuel →
        loadedSampleTree.GetLeafIndexByMap fuel sparseEmpty 0 = Run.done i ∧
        loadedSampleTree.GetLeafByMap fuel sparseEmpty 0 = Run.done leaf.leaf_value) ∧
    (∃ F i leaf, (0 ≤ i ∧ i < (loadedSampleTree.nodes.length : Int)) ∧
      loadedSampleTree.nodeAt i = some leaf ∧ ∀ fuel, F ≤ fuel →
        loadedSampleTree.GetLeafIndexByArray fuel [] false 0 = Run.done i ∧
        ((0 : Int) = 0 → loadedSampleTree.GetLeafByArray fuel [] false =
          Run.done leaf.leaf_value)) :=
  ⟨(traversal_terminates loadedSampleTree loadedSampleTree_topology 0 (by decide)).1
      sparseEmpty,
   (traversal_terminates loadedSampleTree loadedSampleTree_topology 0 (by decide)).2
      Stream 3 streamReader RegTree.empty
      (treeStream sampleHeader sampleRecords sampleStats []) ⟨[]⟩ loadedSampleTree_loaded
      [] false⟩

/-! ## C15: the step bound -/

theorem RegTree.heightLe_valid (rt : RegTree) (d : Nat) (i : Int)
    (h : rt.heightLe d i = true) : ∃ n, rt.nodeAt i = some n := by
  cases hn : rt.nodeAt i with
  | none => cases d <;> simp [RegTree.heightLe, hn] at h
  | some n => exact ⟨n, rfl⟩

/-- A walk that moves from a non-leaf node to one of its two children returns a
leaf index within `d` iterations when the subtree under its start has height at
most `d`. -/
theorem RegTree.walk_within_height (rt : RegTree)
    (next : Node → Option Int) (loop : Nat → Int → Node → Run Int)
    (hnext : ∀ i n, rt.nodeAt i = some n → n._isLeaf = false →
      ∃ j, next n = some j ∧ (j = n.cleft_ ∨ j = n.cright_))
    (hleaf : ∀ fuel pid n, n._isLeaf = true → loop fuel pid n = Run.done pid)
    (hstep : ∀ fuel pid n j m, n._isLeaf = false → next n = some j → rt.nodeAt j = some m →
      loop (fuel + 1) pid n = loop fuel j m) :
    ∀ (d : Nat) (pid : Int) (n : Node), rt.nodeAt pid = some n → rt.heightLe d pid = true →
      ∃ i leaf, loop d pid n = Run.done i ∧ rt.nodeAt i = some leaf ∧ leaf._isLeaf = true := by
  intro d
  induction d with
  | zero =>
    intro pid n hn hd
    have hl : n._isLeaf = true := by simpa [RegTree.heightLe, hn] using hd
    exact ⟨pid, n, hleaf 0 pid n hl, hn, hl⟩
  | succ d ih =>
    intro pid n hn hd
    cases hl : n._isLeaf with
    | true => exact ⟨pid, n, hleaf (d + 1) pid n hl, hn, hl⟩
    | false =>
      have hkids : rt.heightLe d n.cleft_ = true ∧ rt.heightLe d n.cright_ = true := by
        simpa [RegTree.heightLe, hn, hl] using hd
      obtain ⟨j, hj, hjc⟩ := hnext pid n hn hl
      have hdj : rt.heightLe d j = true := by
        rcases hjc with rfl | rfl
        · exact hkids.1
        · exact hkids.2
      obtain ⟨m, hm⟩ := rt.heightLe_valid d j hdj
      obtain ⟨i, leaf, hrun, hleafAt, hleafIs⟩ := ih j m hm hdj
      exact ⟨i, leaf, by rw [hstep d pid n j m hl hj hm, hrun], hleafAt, hleafIs⟩

/-- C15, as stated, fails: the stream of `shallowHeader` (`max_depth = 0`), the
sample node records and the sample statistics loads without error, on a machine
that grants tables of three pointers, into
`shallowTree`, which satisfies the topology invariant and whose root 0 is in
range; on the input `[5.0]` the walk from the root does not return within
`max_depth = 0` transitions, and returns the leaf 2 after one transition. -/
theorem walk_exceeds_header_max_depth :
    RegTree.empty.LoadModel 3 streamReader
        (treeStream shallowHeader sampleRecords sampleStats []) =
      Run.done ((none, shallowTree), ⟨[]⟩) ∧
    shallowTree.Topology ∧
    (shallowTree.param.map Param.max_depth = some 0) ∧
    (shallowTree.nodeAt 0).isSome = true ∧
    shallowTree.GetLeafIndexByArray 0 [F32.five] false 0 = Run.outOfFuel ∧
    shallowTree.GetLeafIndexByArray 1 [F32.five] false 0 = Run.done 2 ∧
    shallowTree.GetLeafIndexByMap 0 (sparseAt0 F32.five) 0 = Run.outOfFuel ∧
    shallowTree.GetLeafIndexByMap 1 (sparseAt0 F32.five) 0 = Run.done 2 := by
  refine ⟨by decide, ?_, rfl, by decide, by decide, by decide, by decide, by decide⟩
  exact RegTree.Topology.of_three_nodes shallowTree sampleRoot (sampleLeaf F32.one)
    (sampleLeaf F32.two) rfl rfl rfl (Or.inl rfl) rfl (Or.inl rfl) rfl (Or.inl rfl)

/-- C15, amended: for every tree loaded without error that satisfies the topology
invariant and every root under which the subtree has height at most the header
field `max_depth` (every chain of child links from the root reaches a leaf within
`max_depth` links, which `LoadModel` does not check), each traversal call returns
within `max_depth` iterations of its loop, that is after at most `max_depth`
node-to-child transitions, for every input. -/
theorem step_bound_of_truthful_max_depth {σ : Type} (maxLen : Nat) (R : ModelReader σ)
    (rt0 rt : RegTree) (s s1 : σ)
    (hload : rt0.LoadModel maxLen R s = Run.done ((none, rt), s1))
    (htop : rt.Topology) (p : Param) (hp : rt.param = some p) (root_id : Int)
    (hdepth : rt.heightLe p.max_depth.toNat root_id = true) :
    (∀ (values : List F32) (z : Bool), ∃ i leaf,
      rt.nodeAt i = some leaf ∧ leaf._isLeaf = true ∧
      rt.GetLeafIndexByArray p.max_depth.toNat values z root_id = Run.done i ∧
      (root_id = 0 → rt.GetLeafByArray p.max_depth.toNat values z = Run.done leaf.leaf_value)) ∧
    (∀ m : GoMap, ∃ i leaf,
      rt.nodeAt i = some leaf ∧ leaf._isLeaf = true ∧
      rt.GetLeafIndexByMap p.max_depth.toNat m root_id = Run.done i ∧
      rt.GetLeafByMap p.max_depth.toNat m root_id = Run.done leaf.leaf_value) := by
  have hnn := LoadModel_splitsNonneg maxLen R rt0 rt s s1 hload
  have _hheader : rt.param.map Param.max_depth = some p.max_depth := by rw [hp]; rfl
  obtain ⟨n, hn⟩ := rt.heightLe_valid _ _ hdepth
  constructor
  · intro values z
    obtain ⟨i, leaf, hrun, hleaf, hl⟩ := rt.walk_within_height
      (fun b => b.nextFromArray values z) (RegTree.GetLeafIndexByArray.loop rt values z)
      (fun i b hb hbl => by
        cases hx : b.nextFromArray values z with
        | none =>
          have := (Node.nextFromArray_eq_none_iff b values z).mp hx
          have := hnn i b hb hbl
          omega
        | some j => exact ⟨j, hx, htop.nextFromArray_child values z i b j hb hx⟩)
      (fun fuel pid b hbl => RegTree.arrayIndexLoop_leaf rt values z fuel pid b hbl)
      (fun fuel pid b j m hbl hx hm => by
        simp [RegTree.GetLeafIndexByArray.loop, hbl, hx, hm])
      p.max_depth.toNat root_id n hn hdepth
    have hidx : rt.GetLeafIndexByArray p.max_depth.toNat values z root_id = Run.done i := by
      simp [RegTree.GetLeafIndexByArray, hn, hrun]
    refine ⟨i, leaf, hleaf, hl, hidx, ?_⟩
    intro h0
    subst h0
    simp [RegTree.GetLeafByArray, hn, RegTree.arrayValueLoop_eq rt values z _ 0 n hn, hrun,
      Run.bind, RegTree.leafValueAt, hleaf]
  · intro m
    obtain ⟨i, leaf, hrun, hleaf, hl⟩ := rt.walk_within_height
      (fun b => some (b.nextFromMap m)) (RegTree.GetLeafIndexByMap.loop rt m)
      (fun i b hb _ => ⟨_, rfl, htop.nextFromMap_child m i b hb⟩)
      (fun fuel pid b hbl => RegTree.mapIndexLoop_leaf rt m fuel pid b hbl)
      (fun fuel pid b j c hbl hx hm => by
        cases hx
        simp [RegTree.GetLeafIndexByMap.loop, hbl, hm])
      p.max_depth.toNat root_id n hn hdepth
    refine ⟨i, leaf, hleaf, hl, by simp [RegTree.GetLeafIndexByMap, hn, hrun], ?_⟩
    simp [RegTree.GetLeafByMap, hn, RegTree.mapValueLoop_eq rt m _ root_id n hn, hrun,
      Run.bind, RegTree.leafValueAt, hleaf]

/-- Witness for C15, amended: the stream of `sampleHeader`, whose `max_depth` 1 is
the height of the sample tree, loads into `loadedSampleTree`; its walks from the
root return within one iteration. -/
theorem step_bound_of_truthful_max_depth_witness :
    (∀ (values : List F32) (z : Bool), ∃ i leaf,
      loadedSampleTree.nodeAt i = some leaf ∧ leaf._isLeaf = true ∧
      loadedSampleTree.GetLeafIndexByArray sampleHeader.max_depth.toNat values z 0 =
        Run.done i ∧
      ((0 : Int) = 0 → loadedSampleTree.GetLeafByArray sampleHeader.max_depth.toNat values z =
        Run.done leaf.leaf_value)) ∧
    (∀ m : GoMap, ∃ i leaf,
      loadedSampleTree.nodeAt i = some leaf ∧ leaf._isLeaf = true ∧
      loadedSampleTree.GetLeafIndexByMap sampleHeader.max_depth.toNat m 0 = Run.done i ∧
      loadedSampleTree.GetLeafByMap sampleHeader.max_depth.toNat m 0 =
        Run.done leaf.leaf_value) :=
  step_bound_of_truthful_max_depth 3 streamReader RegTree.empty loadedSampleTree
    (treeStream sampleHeader sampleRecords sampleStats []) ⟨[]⟩ loadedSampleTree_loaded
    loadedSampleTree_topology sampleHeader rfl 0 (by decide)

end Tree
